import Mathlib

/-!
# Shallow embedding of the EPKE solver core (`src/epke/epke_solver.cpp`)

This file embeds the time-stepping integrator of the epke-solver repository:
the per-step analytic propagation of power, reactivity feedback and precursor
concentrations (`Solver::computeDT`, `computeGamma`, `computeOmega`,
`computeZetaHat`, `computeA1B1`, `computePower`, `computeABC`,
`acceptTransformation`, `solve`), the seeding constructor, and the
coarse/fine solver composition (`createFineSolver`, `assembleGlobalOutput`).

Modelling conventions:
* C++ `double` becomes an arbitrary `LinearOrderedField α`; the C library
  functions `exp`, `log`, `sqrt`, `fabs` and the closed-form kernels
  `util::k0`, `util::k1`, `util::k2`, `util::E` (whose sources live under
  `utility/`, outside the given files) are abstract function parameters
  collected in a `Prims` structure.
* checked accesses (`std::vector::at`) return in an `Except` monad whose
  `outOfRange` error embeds the `std::out_of_range` exception; the
  unconditional `throw;` on the invalid quadratic regime is embedded as an
  error value carrying the failing step index.
* `timeIndex` is `uint32_t` in the source, so the index expression `n - 1`
  wraps around at `n = 0`; `wsub` reproduces that wraparound.
-/

set_option allowUnsafeReducibility true

attribute [semireducible] Rat.add Rat.sub Rat.mul Rat.inv

namespace epke

/-- Failure outcomes of the step loop: an out-of-range checked access
(`std::out_of_range`), or the unconditional abort on a positive leading
quadratic coefficient (`throw;` in `Solver::computeABC`), recorded together
with the step index at which it fired. -/
inductive Err where
  | outOfRange : Err
  | invalidStepRegime : Nat → Err
deriving DecidableEq

/-- Modelled from the spec: the input-validation failure of §7(b); the
collaborating parameter/history providers are outside the given source
files. -/
inductive InputError where
  | malformedInput : InputError
deriving DecidableEq

/-- Abstract numeric primitives: the C library functions used by the solver
and the analytic kernels `util::k0/k1/k2/E` of §4.1, whose implementation
files are not among the given sources.  The spec fixes
`E (lam) (dt) = exp (-lam * dt)`; no claim depends on the kernels' values,
so all seven stay abstract. -/
structure Prims (α : Type) where
  exp : α → α
  log : α → α
  sqrt : α → α
  k0 : α → α → α
  k1 : α → α → α
  k2 : α → α → α
  E : α → α → α

/-- Decidable equality of `Except` results, used to evaluate the embedding on
concrete inputs. -/
instance {ε β : Type} [DecidableEq ε] [DecidableEq β] :
    DecidableEq (Except ε β) := fun x y =>
  match x, y with
  | Except.ok a, Except.ok b =>
      if h : a = b then isTrue (by rw [h])
      else isFalse (fun hc => h (by cases hc; rfl))
  | Except.ok _, Except.error _ => isFalse (fun hc => Except.noConfusion hc)
  | Except.error _, Except.ok _ => isFalse (fun hc => Except.noConfusion hc)
  | Except.error e, Except.error f =>
      if h : e = f then isTrue (by rw [h]) else
        isFalse (fun hc => h (by cases hc; rfl))

/-- `uint32_t` subtraction `n - k`: the source's `timeIndex` arithmetic wraps
around at zero (valid embedding for `n < 2^32`, which holds for every time
index the solver forms). -/
def wsub (n k : Nat) : Nat := if k ≤ n then n - k else n + 2 ^ 32 - k

/-- Checked vector access: `v.at(i)` returns the element or throws
`std::out_of_range`. -/
def atE {α : Type} (l : List α) (i : Nat) : Except Err α :=
  match l[i]? with
  | some v => Except.ok v
  | none => Except.error Err.outOfRange

/-- Checked access into a vector of vectors: `v.at(k).at(i)`. -/
def at2E {α : Type} (l : List (List α)) (k i : Nat) : Except Err α :=
  match l[k]? with
  | some row => atE row i
  | none => Except.error Err.outOfRange

/-- Unchecked write `v[k][i] = x` into a vector of vectors (`operator[]`
performs no bounds check; an out-of-range write is undefined behaviour in the
source and a no-op here, which no claim's precondition permits to occur). -/
def set2 {α : Type} (l : List (List α)) (k i : Nat) (x : α) : List (List α) :=
  match l[k]? with
  | some row => l.set k (row.set i x)
  | none => l

/-- Modelled from the spec: the parameter provider (`EPKEParameters` of
`parareal/solver_parameters.hpp`, not among the given sources) supplies
per-index arrays over the time grid, per-group-per-index arrays for the decay
constants and delayed fractions, and the scalar constants θ, γ_d, η (§3, §6). -/
structure EPKEParameters (α : Type) where
  time : List α
  lambda : List (List α)
  beta : List (List α)
  betaEff : List α
  genTime : List α
  lambdaH : List α
  powNorm : List α
  rhoImp : List α
  theta : α
  gammaD : α
  eta : α
deriving DecidableEq

namespace EPKEParameters

variable {α : Type}

/-- `getNumTimeSteps`: the spec fixes `NumTimeSteps = |grid|` (§3). -/
def getNumTimeSteps (p : EPKEParameters α) : Nat := p.time.length

/-- `getNumPrecursors`: one decay-constant row per precursor group. -/
def getNumPrecursors (p : EPKEParameters α) : Nat := p.lambda.length

/-- Modelled from the spec: per-index accessor of the time grid; checked per
§7(b)/§6. -/
def getTime (p : EPKEParameters α) (n : Nat) : Except Err α := atE p.time n

/-- Modelled from the spec: decay constant λ(k, n). -/
def getDecayConstant (p : EPKEParameters α) (k n : Nat) : Except Err α :=
  at2E p.lambda k n

/-- Modelled from the spec: delayed fraction β(k, n). -/
def getDelayedFraction (p : EPKEParameters α) (k n : Nat) : Except Err α :=
  at2E p.beta k n

/-- Modelled from the spec: total delayed fraction β_eff(n). -/
def getBetaEff (p : EPKEParameters α) (n : Nat) : Except Err α := atE p.betaEff n

/-- Modelled from the spec: generation time Λ(n). -/
def getGenTime (p : EPKEParameters α) (n : Nat) : Except Err α := atE p.genTime n

/-- Modelled from the spec: feedback decay constant λ_h(n). -/
def getLambdaH (p : EPKEParameters α) (n : Nat) : Except Err α := atE p.lambdaH n

/-- Modelled from the spec: power normalization f(n). -/
def getPowNorm (p : EPKEParameters α) (n : Nat) : Except Err α := atE p.powNorm n

/-- Modelled from the spec: imposed reactivity ρ_imp(n). -/
def getRhoImp (p : EPKEParameters α) (n : Nat) : Except Err α := atE p.rhoImp n

end EPKEParameters

/-- Modelled from the spec: the history/seed provider (`EPKEOutput` of
`parareal/precursor.hpp`, not among the given sources) holds a prefix of
power, reactivity and per-group concentration histories (§3, §6). -/
structure EPKEOutput (α : Type) where
  power : List α
  rho : List α
  concentrations : List (List α)
deriving DecidableEq

namespace EPKEOutput

variable {α : Type} [Zero α]

/-- Modelled from the spec: the step count of the available prefix. -/
def getNumTimeSteps (o : EPKEOutput α) : Nat := o.power.length

/-- Modelled from the spec: prefix power accessor, in range in every use the
source makes of it. -/
def getPower (o : EPKEOutput α) (n : Nat) : α := o.power.getD n 0

/-- Modelled from the spec: prefix reactivity accessor. -/
def getRho (o : EPKEOutput α) (n : Nat) : α := o.rho.getD n 0

/-- Modelled from the spec: prefix concentration accessor for group `k`. -/
def getConcentration (o : EPKEOutput α) (k n : Nat) : α :=
  (o.concentrations.getD k []).getD n 0

/-- Modelled from the spec: `createPrecomputed(coarse_index)` slices the
prefix up to (and including, so that the slice's last entry is the value at
the coarse index, §8) the given index. -/
def createPrecomputed (o : EPKEOutput α) (i : Nat) : EPKEOutput α :=
  { power := o.power.take (i + 1)
    rho := o.rho.take (i + 1)
    concentrations := o.concentrations.map (fun row => row.take (i + 1)) }

end EPKEOutput

/-- The solver-owned mutable buffers: the three full-length history sequences
and the per-step scratch vectors `omega` and `zeta_hat`. -/
structure SolverState (α : Type) where
  power : List α
  rho : List α
  concentrations : List (List α)
  omega : List α
  zeta_hat : List α
deriving DecidableEq

/-- The loop `for (n = 0; n < m; n++) dst[n] = f n` of the seeding
constructor, written with the last iteration outermost (the writes hit
pairwise distinct indices, so this is the same final vector). -/
def copyPrefixList {α : Type} (f : Nat → α) : Nat → List α → List α
  | 0, d => d
  | m + 1, d => (copyPrefixList f m d).set m (f m)

section Core

variable {α : Type} [LinearOrderedField α]

/-- `Solver::Solver(params, precomp)`: allocate zero-filled full-length
buffers and copy the precomputed prefix verbatim (concentrations first, then
power and rho, the constructor's two loops).  The constructor's nested
concentration loop writes each row `k` independently, so the fresh table is
built here row by row; `copyPrefixList` plays the inner
`for (n = 0; n < precomp.getNumTimeSteps(); n++)` loop. -/
def mkState (p : EPKEParameters α) (pre : EPKEOutput α) : SolverState α :=
  let N := p.getNumTimeSteps
  let K := p.getNumPrecursors
  let m := pre.getNumTimeSteps
  { power := copyPrefixList (fun n => pre.getPower n) m (List.replicate N 0)
    rho := copyPrefixList (fun n => pre.getRho n) m (List.replicate N 0)
    concentrations :=
      (List.range K).map
        (fun k => copyPrefixList (fun n => pre.getConcentration k n) m
          (List.replicate N 0))
    omega := List.replicate K 0
    zeta_hat := List.replicate K 0 }

/-- `Solver::computeDT`: `getTime(n) - getTime(n-1)`. -/
def computeDT (p : EPKEParameters α) (n : Nat) : Except Err α := do
  let t1 ← p.getTime n
  let t0 ← p.getTime (wsub n 1)
  pure (t1 - t0)

/-- `Solver::computeGamma`: `n < 2 ? 1.0 : computeDT(n-1) / computeDT(n)`. -/
def computeGamma (p : EPKEParameters α) (n : Nat) : Except Err α :=
  if n < 2 then pure 1
  else do
    let dtp ← computeDT p (n - 1)
    let dtn ← computeDT p n
    pure (dtp / dtn)

/-- `Solver::computeOmega`. -/
def computeOmega (pr : Prims α) (p : EPKEParameters α) (k n : Nat)
    (w gamma : α) : Except Err α := do
  let lambda_k ← p.getDecayConstant k n
  let dt ← computeDT p n
  let g0 ← p.getGenTime 0
  let gn ← p.getGenTime n
  let bkn ← p.getDelayedFraction k n
  pure (g0 / gn * bkn * w *
    (pr.k2 lambda_k dt + gamma * dt * pr.k1 lambda_k dt) /
    ((1 + gamma) * dt * dt))

/-- `Solver::computeZetaHat`, including the `n < 2` edge policy that reuses
the one-step-back values in place of the missing two-steps-back history. -/
def computeZetaHat (pr : Prims α) (p : EPKEParameters α) (st : SolverState α)
    (k n : Nat) (w gamma : α) : Except Err α := do
  let lambda_k ← p.getDecayConstant k n
  let dt ← computeDT p n
  let bpg ←
    (if n < 2 then do
      let b ← p.getDelayedFraction k (wsub n 1)
      let pw ← atE st.power (wsub n 1)
      let g ← p.getGenTime (wsub n 1)
      pure (b, pw, g)
    else do
      let b ← p.getDelayedFraction k (n - 2)
      let pw ← atE st.power (n - 2)
      let g ← p.getGenTime (n - 2)
      pure (b, pw, g))
  let ck ← at2E st.concentrations k (wsub n 1)
  let pw1 ← atE st.power (wsub n 1)
  let b1 ← p.getDelayedFraction k (wsub n 1)
  let g1 ← p.getGenTime (wsub n 1)
  let g0 ← p.getGenTime 0
  pure (w * ck +
    w * g0 * pw1 * b1 / g1 *
      (pr.k0 lambda_k dt -
        (pr.k2 lambda_k dt - dt * (gamma - 1) * pr.k1 lambda_k dt) /
        (gamma * dt * dt)) +
    w * g0 * bpg.2.1 * bpg.1 / bpg.2.2 *
      (pr.k2 lambda_k dt - dt * pr.k1 lambda_k dt) /
      ((1 + gamma) * gamma * dt * dt))

/-- `Solver::computeA1B1`: the feedback pair expressing
`rho(n) = a1 * power(n) + b1`, with the same `n < 2` edge policy for the
missing two-steps-back normalized power. -/
def computeA1B1 (pr : Prims α) (p : EPKEParameters α) (st : SolverState α)
    (n : Nat) (gamma : α) : Except Err (α × α) := do
  let lh ← p.getLambdaH n
  let dt ← computeDT p n
  let hpp ←
    (if n < 2 then do
      let pnm ← p.getPowNorm (wsub n 1)
      let pw ← atE st.power (wsub n 1)
      pure (pnm * pw)
    else do
      let pnm ← p.getPowNorm (n - 2)
      let pw ← atE st.power (n - 2)
      pure (pnm * pw))
  let pnn ← p.getPowNorm n
  let rimp ← p.getRhoImp n
  let r1 ← atE st.rho (wsub n 1)
  let rimp1 ← p.getRhoImp (wsub n 1)
  let p0 ← atE st.power 0
  let pn1 ← p.getPowNorm (wsub n 1)
  let pw1 ← atE st.power (wsub n 1)
  let a1 := p.gammaD * pnn / pr.E lh dt *
    (pr.k2 lh dt + pr.k1 lh dt * gamma * dt) / ((1 + gamma) * dt * dt)
  let b1 := rimp + 1 / pr.E lh dt *
      ((r1 - rimp1) - p0 * p.gammaD * p.eta * pr.k0 lh dt) +
    p.gammaD / pr.E lh dt *
      (pn1 * pw1 *
          (pr.k0 lh dt -
            (pr.k2 lh dt + (gamma - 1) * dt * pr.k1 lh dt) /
            (gamma * dt * dt)) +
        hpp * (pr.k2 lh dt - pr.k1 lh dt * dt) /
          ((1 + gamma) * gamma * dt * dt))
  pure (a1, b1)

/-- The leading coefficient `a` of the per-step quadratic
(`Solver::computeABC`, first assignment).  The source computes `dt` and the
getter values once and reuses them across `a`, `b`, `c`; the three
coefficient definitions below repeat those pure reads, which changes neither
any value nor the error outcome (every failed read is the same payload-free
`outOfRange`). -/
def coefA (p : EPKEParameters α) (n : Nat) (a1b1 : α × α) : Except Err α := do
  let dt ← computeDT p n
  let gn ← p.getGenTime n
  pure (p.theta * dt * a1b1.1 / gn)

/-- The linear coefficient `b` of the per-step quadratic. -/
def coefB (p : EPKEParameters α) (n : Nat) (alpha : α) (a1b1 : α × α)
    (tau : α) : Except Err α := do
  let dt ← computeDT p n
  let gn ← p.getGenTime n
  let be ← p.getBetaEff n
  let g0 ← p.getGenTime 0
  pure (p.theta * dt * (((a1b1.2 - be) / gn - alpha) + tau / g0) - 1)

/-- The constant coefficient `c` of the per-step quadratic. -/
def coefC (pr : Prims α) (p : EPKEParameters α) (st : SolverState α) (n : Nat)
    (alpha s_hat_d s_d_prev : α) : Except Err α := do
  let dt ← computeDT p n
  let g0 ← p.getGenTime 0
  let r1 ← atE st.rho (wsub n 1)
  let be1 ← p.getBetaEff (wsub n 1)
  let g1 ← p.getGenTime (wsub n 1)
  let pw1 ← atE st.power (wsub n 1)
  pure (p.theta * dt / g0 * s_hat_d +
    pr.exp (alpha * dt) *
      ((1 - p.theta) * dt * (((r1 - be1) / g1 - alpha) * pw1 + s_d_prev / g0) +
        pw1))

/-- `Solver::computeABC`: assemble `(a, b, c)` and select the root.  The
source's bare `throw;` on `a > 0` (an unconditional abort) is embedded as the
`invalidStepRegime` error carrying the failing step index. -/
def computeABC (pr : Prims α) (p : EPKEParameters α) (st : SolverState α)
    (n : Nat) (alpha : α) (a1b1 : α × α) (tau s_hat_d s_d_prev : α) :
    Except Err α := do
  let a ← coefA p n a1b1
  let b ← coefB p n alpha a1b1 tau
  let c ← coefC pr p st n alpha s_hat_d s_d_prev
  if a < 0 then pure ((-b - pr.sqrt (b * b - 4 * a * c)) / (2 * a))
  else if a = 0 then pure (-c / b)
  else Except.error (Err.invalidStepRegime n)

/-- The body of `Solver::computePower`'s precursor loop, iterated over the
group indices: writes `omega[k]` and `zeta_hat[k]` and accumulates `tau`,
`s_hat_d` and `s_d_prev` exactly as the source does (in particular `tau` and
`s_hat_d` re-read the just-written entries through checked access). -/
def powerLoop (pr : Prims α) (p : EPKEParameters α) (st : SolverState α)
    (n : Nat) (gamma : α) :
    List Nat → List α × List α × α × α × α →
    Except Err (List α × List α × α × α × α)
  | [], acc => pure acc
  | k :: ks, (om, ze, tau, shat, sdp) => do
      let lam ← p.getDecayConstant k n
      let dt ← computeDT p n
      let w := 1 / pr.E lam dt
      let ok ← computeOmega pr p k n w gamma
      let om' := om.set k ok
      let zk ← computeZetaHat pr p st k n w gamma
      let ze' := ze.set k zk
      let lam2 ← p.getDecayConstant k n
      let omk ← atE om' k
      let lam3 ← p.getDecayConstant k n
      let zek ← atE ze' k
      let lamp ← p.getDecayConstant k (wsub n 1)
      let ck ← at2E st.concentrations k (wsub n 1)
      powerLoop pr p st n gamma ks
        (om', ze', tau + lam2 * omk, shat + lam3 * zek, sdp + lamp * ck)

/-- `Solver::computePower`: run the precursor loop, compute the feedback
pair, and solve the quadratic; returns the new power together with the
updated scratch vectors (the source updates the `omega`/`zeta_hat` members in
place). -/
def computePower (pr : Prims α) (p : EPKEParameters α) (st : SolverState α)
    (n : Nat) (alpha gamma : α) : Except Err (α × List α × List α) := do
  let acc ← powerLoop pr p st n gamma (List.range p.getNumPrecursors)
    (st.omega, st.zeta_hat, 0, 0, 0)
  let a1b1 ← computeA1B1 pr p st n gamma
  let pv ← computeABC pr p st n alpha a1b1 acc.2.2.1 acc.2.2.2.1 acc.2.2.2.2
  pure (pv, acc.1, acc.2.1)

/-- `Solver::acceptTransformation`: the acceptance criterion comparing the
exponential extrapolation of power against the linear-difference prediction.
Defined in the source but never invoked (its only call site is commented
out). -/
def acceptTransformation (pr : Prims α) (p : EPKEParameters α)
    (st : SolverState α) (n : Nat) (alpha gamma : α) : Except Err Bool := do
  let ppp ← (if n < 2 then atE st.power (wsub n 1) else atE st.power (n - 2))
  let dt ← computeDT p n
  let pn ← atE st.power n
  let p1 ← atE st.power (wsub n 1)
  pure (decide (|pn - pr.exp (alpha * dt) * p1| ≤
    |pn - p1 - (p1 - ppp) / gamma|))

/-- The extrapolation-rate policy at the top of the step loop's body: when
`n > 1` the carried `alpha` is overwritten with
`1 / computeDT(n-1) * log(power(n-1) / power(n-2))`, otherwise the carried
value is used unchanged. -/
def stepUsedAlpha (pr : Prims α) (p : EPKEParameters α) (st : SolverState α)
    (n : Nat) (alpha : α) : Except Err α :=
  if 1 < n then do
    let dtp ← computeDT p (n - 1)
    let p1 ← atE st.power (n - 1)
    let p2 ← atE st.power (n - 2)
    pure (1 / dtp * pr.log (p1 / p2))
  else pure alpha

/-- The concentration-update loop of `Solver::solve`:
`concentrations[k][n] = power.at(n) * omega.at(k) + zeta_hat.at(k)`. -/
def concLoop (n : Nat) : List Nat → SolverState α → Except Err (SolverState α)
  | [], st => pure st
  | k :: ks, st => do
      let pn ← atE st.power n
      let omk ← atE st.omega k
      let zk ← atE st.zeta_hat k
      concLoop n ks
        { st with concentrations := set2 st.concentrations k n (pn * omk + zk) }

/-- One iteration of the step loop of `Solver::solve`: compute `gamma`,
update the carried `alpha`, evaluate and store the power, update the
concentrations, and finalize the reactivity.  Returns the carried `alpha`
together with the updated state. -/
def stepE (pr : Prims α) (p : EPKEParameters α) (n : Nat) (alpha : α)
    (st : SolverState α) : Except Err (α × SolverState α) := do
  let gamma ← computeGamma p n
  let alpha' ← stepUsedAlpha pr p st n alpha
  let pos ← computePower pr p st n alpha' gamma
  let st1 : SolverState α :=
    { st with
      power := st.power.set n pos.1,
      omega := pos.2.1,
      zeta_hat := pos.2.2 }
  let st2 ← concLoop n (List.range p.getNumPrecursors) st1
  let a1b1 ← computeA1B1 pr p st2 n gamma
  let pn ← atE st2.power n
  pure (alpha', { st2 with rho := st2.rho.set n (a1b1.1 * pn + a1b1.2) })

/-- The step loop, driven over an explicit list of time indices.  On failure
the state reached before the failing step is returned together with the
error (the source's buffers hold exactly the successfully completed steps at
that point; only the scratch `omega`/`zeta_hat` vectors may additionally have
been touched by the failing step, and no claim observes those after a
failure). -/
def runSteps (pr : Prims α) (p : EPKEParameters α) :
    List Nat → α × SolverState α → (α × SolverState α) × Option Err
  | [], as => (as, none)
  | n :: ns, as =>
      match stepE pr p n as.1 as.2 with
      | Except.ok as' => runSteps pr p ns as'
      | Except.error e => (as, some e)

/-- The step of `solve` as the spec's §4.2 describes the optional acceptance
test: identical to `stepE` except that, between the power write and the
concentration update (the position of the commented-out call site at lines
230–234 of the source), the acceptance criterion is additionally computed —
and its result discarded, so the `alpha = 0` fallback recomputation is never
taken. -/
def stepAcceptE (pr : Prims α) (p : EPKEParameters α) (n : Nat) (alpha : α)
    (st : SolverState α) : Except Err (α × SolverState α) := do
  let gamma ← computeGamma p n
  let alpha' ← stepUsedAlpha pr p st n alpha
  let pos ← computePower pr p st n alpha' gamma
  let st1 : SolverState α :=
    { st with
      power := st.power.set n pos.1,
      omega := pos.2.1,
      zeta_hat := pos.2.2 }
  let _acc ← acceptTransformation pr p st1 n alpha' gamma
  let st2 ← concLoop n (List.range p.getNumPrecursors) st1
  let a1b1 ← computeA1B1 pr p st2 n gamma
  let pn ← atE st2.power n
  pure (alpha', { st2 with rho := st2.rho.set n (a1b1.1 * pn + a1b1.2) })

/-- The step loop built on `stepAcceptE` instead of `stepE`. -/
def runStepsAccept (pr : Prims α) (p : EPKEParameters α) :
    List Nat → α × SolverState α → (α × SolverState α) × Option Err
  | [], as => (as, none)
  | n :: ns, as =>
      match stepAcceptE pr p n as.1 as.2 with
      | Except.ok as' => runStepsAccept pr p ns as'
      | Except.error e => (as, some e)

/-- The index range of the step loop:
`for (n = precomp.getNumTimeSteps(); n < params.getNumTimeSteps(); n++)`. -/
def solveIndices (p : EPKEParameters α) (pre : EPKEOutput α) : List Nat :=
  List.range' pre.getNumTimeSteps (p.getNumTimeSteps - pre.getNumTimeSteps)

/-- `Solver::solve` on a solver state: the carried `alpha` starts at `0`. -/
def solveState (pr : Prims α) (p : EPKEParameters α) (pre : EPKEOutput α)
    (st : SolverState α) : (α × SolverState α) × Option Err :=
  runSteps pr p (solveIndices p pre) (0, st)

end Core

/-- The `epke::Solver` object: its parameter set, its precomputed prefix, its
owned history/scratch buffers, and the list of owned fine solvers it has
spawned. -/
inductive Solver (α : Type) : Type where
  | mk : EPKEParameters α → EPKEOutput α → SolverState α → List (Solver α) →
      Solver α

namespace Solver

variable {α : Type} [LinearOrderedField α]

/-- The solver's parameter set. -/
def params : Solver α → EPKEParameters α
  | .mk p _ _ _ => p

/-- The solver's precomputed prefix. -/
def precomp : Solver α → EPKEOutput α
  | .mk _ o _ _ => o

/-- The solver's owned buffers. -/
def state : Solver α → SolverState α
  | .mk _ _ s _ => s

/-- The solver's owned fine solvers (`_fine_solvers`). -/
def fineSolvers : Solver α → List (Solver α)
  | .mk _ _ _ f => f

/-- `Solver::Solver(params, precomp)`: seed the buffers and start with no
fine solvers. -/
def make (p : EPKEParameters α) (pre : EPKEOutput α) : Solver α :=
  .mk p pre (mkState p pre) []

/-- `Solver::createFineSolver`: construct a child from the interpolated
parameter set and the sliced prefix, push it onto the caller's
`_fine_solvers`, and return it (without running its step loop).  The
interpolation operation `EPKEParameters::interpolate` lives outside the
given sources and is abstracted as the function argument `interp`. -/
def createFineSolver (interp : EPKEParameters α → List α → EPKEParameters α)
    (s : Solver α) (fineTime : List α) (coarseIndex : Nat) :
    Solver α × Solver α :=
  let fine := make (interp s.params fineTime)
    (s.precomp.createPrecomputed coarseIndex)
  (.mk s.params s.precomp s.state (s.fineSolvers ++ [fine]), fine)

/-- `Solver::assembleGlobalOutput`: the source returns
`make_shared<para::SolverOutput>(precomp)`, a pass-through of the
precomputed prefix. -/
def assembleGlobalOutput (s : Solver α) : EPKEOutput α := s.precomp

/-- `Solver::solve` on a solver object: run the step loop over the post-seed
indices; on success the result bundles the three full-length history
sequences. -/
def solve (pr : Prims α) (s : Solver α) :
    Solver α × Except Err (EPKEOutput α) :=
  let r := solveState pr s.params s.precomp s.state
  (.mk s.params s.precomp r.1.2 s.fineSolvers,
    match r.2 with
    | none => Except.ok ⟨r.1.2.power, r.1.2.rho, r.1.2.concentrations⟩
    | some e => Except.error e)

end Solver

/-! ## Basic lemmas about the embedding -/

section Lemmas

variable {α : Type} [LinearOrderedField α]

/-- Reduction of `bind` on a success. -/
theorem ok_bind {β γ : Type} (b : β) (f : β → Except Err γ) :
    (Except.ok b >>= f) = f b := rfl

/-- Reduction of `bind` on an error. -/
theorem error_bind {β γ : Type} (e : Err) (f : β → Except Err γ) :
    ((Except.error e : Except Err β) >>= f) = Except.error e := rfl

/-- Inversion of a successful `bind`. -/
theorem bind_eq_ok {β γ : Type} {x : Except Err β} {f : β → Except Err γ}
    {c : γ} (h : (x >>= f) = Except.ok c) :
    ∃ b, x = Except.ok b ∧ f b = Except.ok c := by
  cases x with
  | ok b => exact ⟨b, rfl, h⟩
  | error e =>
      rw [error_bind] at h
      exact Except.noConfusion h

end Lemmas

/-- A checked access as a function of the underlying optional entry. -/
def optE {β : Type} (o : Option β) : Except Err β :=
  match o with
  | some v => Except.ok v
  | none => Except.error Err.outOfRange

/-- `atE` only depends on the optional entry. -/
theorem atE_eq_optE {β : Type} (l : List β) (i : Nat) : atE l i = optE l[i]? := rfl

/-- The entry of a table (list of rows) at row `k`, column `m`. -/
def tget {β : Type} (l : List (List β)) (k m : Nat) : Option β :=
  l[k]?.bind fun r => r[m]?

/-- The length of row `k` of a table, as an `Option`. -/
def rowLen {β : Type} (l : List (List β)) (k : Nat) : Option Nat :=
  (l[k]?).map List.length

/-- `at2E` only depends on the optional table entry. -/
theorem at2E_eq_optE {β : Type} (l : List (List β)) (k i : Nat) :
    at2E l k i = optE (tget l k i) := by
  unfold at2E tget
  cases h : l[k]? with
  | some row => rfl
  | none => rfl

/-- `set2` leaves every column other than the written one unchanged. -/
theorem tget_set2_ne {β : Type} (l : List (List β)) (k i : Nat) (v : β)
    (k' m : Nat) (hm : m ≠ i) : tget (set2 l k i v) k' m = tget l k' m := by
  unfold set2
  cases h : l[k]? with
  | none => rfl
  | some row =>
      unfold tget
      rcases eq_or_ne k' k with hk | hk
      · subst hk
        have hlen : k' < l.length := (List.getElem?_eq_some_iff.mp h).1
        rw [List.getElem?_set_self (by simpa using hlen), h]
        simp [List.getElem?_set_ne (fun hc => hm (hc.symm))]
      · rw [List.getElem?_set_ne (fun hc => hk (hc.symm))]

/-- `set2` preserves the number of rows. -/
theorem length_set2 {β : Type} (l : List (List β)) (k i : Nat) (v : β) :
    (set2 l k i v).length = l.length := by
  unfold set2
  cases l[k]? with
  | none => rfl
  | some row => exact List.length_set ..

/-- `set2` preserves the length of every row. -/
theorem rowLen_set2 {β : Type} (l : List (List β)) (k i : Nat) (v : β)
    (k' : Nat) : rowLen (set2 l k i v) k' = rowLen l k' := by
  unfold set2 rowLen
  cases h : l[k]? with
  | none => rfl
  | some row =>
      rcases eq_or_ne k' k with hk | hk
      · subst hk
        have hlen : k' < l.length := (List.getElem?_eq_some_iff.mp h).1
        rw [List.getElem?_set_self (by simpa using hlen), h]
        simp
      · rw [List.getElem?_set_ne (fun hc => hk (hc.symm))]

section Lemmas2

variable {α : Type} [LinearOrderedField α]

/-- The concentration-update loop writes only into column `n` and leaves the
other buffers untouched. -/
theorem concLoop_frame (n : Nat) : ∀ (ks : List Nat) (st st' : SolverState α),
    concLoop n ks st = Except.ok st' →
    st'.power = st.power ∧ st'.rho = st.rho ∧ st'.omega = st.omega ∧
      st'.zeta_hat = st.zeta_hat ∧
      st'.concentrations.length = st.concentrations.length ∧
      (∀ k', rowLen st'.concentrations k' = rowLen st.concentrations k') ∧
      (∀ k m, m ≠ n → tget st'.concentrations k m = tget st.concentrations k m)
  | [], st, st', h => by
      cases h
      exact ⟨rfl, rfl, rfl, rfl, rfl, fun _ => rfl, fun _ _ _ => rfl⟩
  | k :: ks, st, st', h => by
      unfold concLoop at h
      obtain ⟨pn, hpn, h⟩ := bind_eq_ok h
      obtain ⟨omk, homk, h⟩ := bind_eq_ok h
      obtain ⟨zk, hzk, h⟩ := bind_eq_ok h
      obtain ⟨h1, h2, h3, h4, h5, h6, h7⟩ := concLoop_frame n ks _ st' h
      refine ⟨h1, h2, h3, h4, ?_, ?_, ?_⟩
      · rw [h5]; exact length_set2 st.concentrations k n _
      · intro k'
        rw [h6 k']
        exact rowLen_set2 st.concentrations k n _ k'
      · intro k' m hm
        rw [h7 k' m hm]
        exact tget_set2_ne st.concentrations k n _ k' m hm

/-- A successful step writes the history buffers only at its own index and
preserves all dimensions of the three history sequences. -/
theorem stepE_frame {pr : Prims α} {p : EPKEParameters α} {n : Nat} {a : α}
    {st : SolverState α} {a' : α} {st' : SolverState α}
    (h : stepE pr p n a st = Except.ok (a', st')) :
    (∀ m, m ≠ n → st'.power[m]? = st.power[m]?) ∧
    (∀ m, m ≠ n → st'.rho[m]? = st.rho[m]?) ∧
    (∀ k m, m ≠ n → tget st'.concentrations k m = tget st.concentrations k m) ∧
    st'.power.length = st.power.length ∧
    st'.rho.length = st.rho.length ∧
    st'.concentrations.length = st.concentrations.length ∧
    (∀ k', rowLen st'.concentrations k' = rowLen st.concentrations k') := by
  unfold stepE at h
  obtain ⟨gamma, hg, h⟩ := bind_eq_ok h
  obtain ⟨alpha', hal, h⟩ := bind_eq_ok h
  obtain ⟨pos, hpos, h⟩ := bind_eq_ok h
  obtain ⟨st2, hst2, h⟩ := bind_eq_ok h
  obtain ⟨a1b1, hab, h⟩ := bind_eq_ok h
  obtain ⟨pn, hpn, h⟩ := bind_eq_ok h
  cases h
  obtain ⟨c1, c2, _, _, c5, c6, c7⟩ := concLoop_frame n _ _ _ hst2
  refine ⟨?_, ?_, ?_, ?_, ?_, ?_, ?_⟩
  · intro m hm
    show st2.power[m]? = _
    rw [c1]
    exact List.getElem?_set_ne (fun hc => hm hc.symm)
  · intro m hm
    show (st2.rho.set n _)[m]? = _
    rw [List.getElem?_set_ne (fun hc => hm hc.symm), c2]
  · intro k m hm
    show tget st2.concentrations k m = _
    exact c7 k m hm
  · show st2.power.length = _
    rw [c1]; exact List.length_set ..
  · show (st2.rho.set n _).length = _
    rw [List.length_set, c2]
  · exact c5
  · exact c6

/-- Splitting the step loop at a list append. -/
theorem runSteps_append (pr : Prims α) (p : EPKEParameters α) :
    ∀ (ns1 ns2 : List Nat) (as : α × SolverState α),
    runSteps pr p (ns1 ++ ns2) as =
      match runSteps pr p ns1 as with
      | (as1, none) => runSteps pr p ns2 as1
      | (as1, some e) => (as1, some e)
  | [], ns2, as => rfl
  | n :: ns1, ns2, as => by
      cases hs : stepE pr p n as.1 as.2 with
      | ok as' =>
          simp only [List.cons_append, runSteps, hs]
          exact runSteps_append pr p ns1 ns2 as'
      | error e => simp only [List.cons_append, runSteps, hs]

/-- The step loop leaves every history entry whose index appears in none of
the processed steps unchanged (also when it stops at an error, since the
failing step's partial work is not committed to the history buffers). -/
theorem runSteps_frame (pr : Prims α) (p : EPKEParameters α) :
    ∀ (ns : List Nat) (a : α) (st : SolverState α) (res : (α × SolverState α) × Option Err),
    runSteps pr p ns (a, st) = res →
    ∀ m, (∀ i ∈ ns, i ≠ m) →
      res.1.2.power[m]? = st.power[m]? ∧ res.1.2.rho[m]? = st.rho[m]? ∧
      ∀ k, tget res.1.2.concentrations k m = tget st.concentrations k m
  | [], a, st, res, h, m, hm => by
      cases h
      exact ⟨rfl, rfl, fun _ => rfl⟩
  | n :: ns, a, st, res, h, m, hm => by
      unfold runSteps at h
      cases hs : stepE pr p n a st with
      | ok as' =>
          rw [hs] at h
          obtain ⟨f1, f2, f3, _, _, _, _⟩ := stepE_frame hs
          have hmn : n ≠ m := hm n (List.mem_cons_self n ns)
          have hne : m ≠ n := fun hc => hmn hc.symm
          obtain ⟨g1, g2, g3⟩ := runSteps_frame pr p ns as'.1 as'.2 res
            (by rw [← h]) m (fun i hi => hm i (List.mem_cons_of_mem n hi))
          exact ⟨by rw [g1, f1 m hne], by rw [g2, f2 m hne],
            fun k => by rw [g3 k, f3 k m hne]⟩
      | error e =>
          rw [hs] at h
          cases h
          exact ⟨rfl, rfl, fun _ => rfl⟩

/-- A successful step returns exactly the `alpha` produced by the
extrapolation policy at its head. -/
theorem stepE_ok_alpha {pr : Prims α} {p : EPKEParameters α} {n : Nat}
    {a : α} {st : SolverState α} {a' : α} {st' : SolverState α}
    (h : stepE pr p n a st = Except.ok (a', st')) :
    stepUsedAlpha pr p st n a = Except.ok a' := by
  unfold stepE at h
  obtain ⟨gamma, hg, h⟩ := bind_eq_ok h
  obtain ⟨alpha', hal, h⟩ := bind_eq_ok h
  obtain ⟨pos, hpos, h⟩ := bind_eq_ok h
  obtain ⟨st2, hst2, h⟩ := bind_eq_ok h
  obtain ⟨a1b1, hab, h⟩ := bind_eq_ok h
  obtain ⟨pn, hpn, h⟩ := bind_eq_ok h
  cases h
  exact hal

/-- Steps with index at most 1 pass the carried `alpha` through unchanged. -/
theorem runSteps_alpha_le_one (pr : Prims α) (p : EPKEParameters α) :
    ∀ (ns : List Nat) (a : α) (st : SolverState α) (a' : α) (st' : SolverState α),
    (∀ i ∈ ns, ¬ 1 < i) →
    runSteps pr p ns (a, st) = ((a', st'), none) → a' = a
  | [], a, st, a', st', _, h => by
      cases h; rfl
  | n :: ns, a, st, a', st', hle, h => by
      unfold runSteps at h
      cases hs : stepE pr p n a st with
      | ok as' =>
          rw [hs] at h
          have h1 : as'.1 = a := by
            have := stepE_ok_alpha hs
            rw [stepUsedAlpha, if_neg (hle n (List.mem_cons_self n ns))] at this
            exact (Except.ok.injEq _ _).mp this.symm
          have := runSteps_alpha_le_one pr p ns as'.1 as'.2 a' st'
            (fun i hi => hle i (List.mem_cons_of_mem n hi)) (by rw [← h])
          rw [this, h1]
      | error e =>
          rw [hs] at h
          exact Option.noConfusion (congrArg Prod.snd h)

end Lemmas2

/-! ## Well-formed inputs and bounds of the checked accesses -/

/-- The writes of the seeding constructor preserve buffer length. -/
theorem length_copyPrefixList {β : Type} (f : Nat → β) :
    ∀ (m : Nat) (d : List β), (copyPrefixList f m d).length = d.length
  | 0, _ => rfl
  | m + 1, d => by
      show ((copyPrefixList f m d).set m (f m)).length = d.length
      rw [List.length_set]
      exact length_copyPrefixList f m d

/-- Entries below the copied prefix hold the copied values. -/
theorem getElem?_copyPrefixList_lt {β : Type} (f : Nat → β) :
    ∀ (m : Nat) (d : List β) (n : Nat), n < m → n < d.length →
      (copyPrefixList f m d)[n]? = some (f n)
  | 0, _, n, h, _ => absurd h (Nat.not_lt_zero n)
  | m + 1, d, n, h, hd => by
      show ((copyPrefixList f m d).set m (f m))[n]? = some (f n)
      rcases eq_or_ne n m with he | he
      · subst he
        have hlen : n < (copyPrefixList f n d).length := by
          rw [length_copyPrefixList]; exact hd
        rw [List.getElem?_set_self hlen]
      · rw [List.getElem?_set_ne (fun hc => he hc.symm)]
        exact getElem?_copyPrefixList_lt f m d n (by omega) hd

/-- Entries at or beyond the copied prefix are untouched. -/
theorem getElem?_copyPrefixList_ge {β : Type} (f : Nat → β) :
    ∀ (m : Nat) (d : List β) (n : Nat), m ≤ n →
      (copyPrefixList f m d)[n]? = d[n]?
  | 0, _, _, _ => rfl
  | m + 1, d, n, h => by
      show ((copyPrefixList f m d).set m (f m))[n]? = d[n]?
      rw [List.getElem?_set_ne (by omega)]
      exact getElem?_copyPrefixList_ge f m d n (by omega)

/-- Well-formedness of a parameter set (§3): every per-index array has the
length of the time grid; the delayed-fraction table has one row per
precursor group; every per-group row has grid length. -/
def WFParams {β : Type} (p : EPKEParameters β) : Prop :=
  (∀ row ∈ p.lambda, row.length = p.getNumTimeSteps) ∧
  p.beta.length = p.getNumPrecursors ∧
  (∀ row ∈ p.beta, row.length = p.getNumTimeSteps) ∧
  p.betaEff.length = p.getNumTimeSteps ∧
  p.genTime.length = p.getNumTimeSteps ∧
  p.lambdaH.length = p.getNumTimeSteps ∧
  p.powNorm.length = p.getNumTimeSteps ∧
  p.rhoImp.length = p.getNumTimeSteps

instance {β : Type} (p : EPKEParameters β) : Decidable (WFParams p) := by
  unfold WFParams
  exact inferInstance

/-- Well-formedness of the solver-owned buffers relative to a parameter
set: full-length histories, one concentration row of grid length per
precursor group, and group-sized scratch vectors. -/
def WFState {β : Type} (p : EPKEParameters β) (st : SolverState β) : Prop :=
  st.power.length = p.getNumTimeSteps ∧
  st.rho.length = p.getNumTimeSteps ∧
  st.concentrations.length = p.getNumPrecursors ∧
  (∀ row ∈ st.concentrations, row.length = p.getNumTimeSteps) ∧
  st.omega.length = p.getNumPrecursors ∧
  st.zeta_hat.length = p.getNumPrecursors

instance {β : Type} (p : EPKEParameters β) (st : SolverState β) :
    Decidable (WFState p st) := by
  unfold WFState
  exact inferInstance

/-- Modelled from the spec: the input-validation predicate of §7(b), checked
by the parameter/history collaborators (whose sources are not among the
given files): every parameter array matches the time grid, the precomputed
prefix is non-empty and no longer than the grid, and the prefix's three
sequences agree in dimensions with the grid and the group structure. -/
def wellFormedInput {β : Type} (p : EPKEParameters β) (pre : EPKEOutput β) :
    Prop :=
  WFParams p ∧ 1 ≤ pre.getNumTimeSteps ∧
  pre.getNumTimeSteps ≤ p.getNumTimeSteps ∧
  pre.rho.length = pre.getNumTimeSteps ∧
  pre.concentrations.length = p.getNumPrecursors ∧
  ∀ row ∈ pre.concentrations, row.length = pre.getNumTimeSteps

instance {β : Type} (p : EPKEParameters β) (pre : EPKEOutput β) :
    Decidable (wellFormedInput p pre) := by
  unfold wellFormedInput
  exact inferInstance

/-- Modelled from the spec: construction with up-front validation (§7(b)):
malformed parameter or history data is rejected as `malformedInput` at
construction, before any stepping begins. -/
def checkedConstruct {β : Type} [LinearOrderedField β] (p : EPKEParameters β)
    (pre : EPKEOutput β) : Except InputError (Solver β) :=
  if wellFormedInput p pre then Except.ok (Solver.make p pre)
  else Except.error InputError.malformedInput

/-- Modelled from the spec: the checked pipeline — validate and construct,
then run the step loop. -/
def checkedSolve {β : Type} [LinearOrderedField β] (pr : Prims β)
    (p : EPKEParameters β) (pre : EPKEOutput β) :
    Except InputError (Solver β × Except Err (EPKEOutput β)) :=
  (checkedConstruct p pre).map (fun s => Solver.solve pr s)

/-- The freshly seeded buffers are well-formed for any prefix. -/
theorem mkState_WFState {β : Type} [LinearOrderedField β]
    (p : EPKEParameters β) (pre : EPKEOutput β) : WFState p (mkState p pre) := by
  refine ⟨?_, ?_, ?_, ?_, ?_, ?_⟩
  · show (copyPrefixList _ _ (List.replicate p.getNumTimeSteps 0)).length = _
    rw [length_copyPrefixList, List.length_replicate]
  · show (copyPrefixList _ _ (List.replicate p.getNumTimeSteps 0)).length = _
    rw [length_copyPrefixList, List.length_replicate]
  · show ((List.range p.getNumPrecursors).map _).length = _
    rw [List.length_map, List.length_range]
  · intro row hrow
    obtain ⟨k, _, hk⟩ := List.mem_map.mp hrow
    rw [← hk, length_copyPrefixList, List.length_replicate]
  · exact List.length_replicate ..
  · exact List.length_replicate ..

/-- A computation that succeeded with some value. -/
def Oks {β : Type} (x : Except Err β) : Prop := ∃ v, x = Except.ok v

/-- An in-range checked access succeeds. -/
theorem oks_atE {β : Type} {l : List β} {i : Nat} (h : i < l.length) :
    Oks (atE l i) :=
  ⟨l[i], by rw [atE_eq_optE, List.getElem?_eq_getElem h]; rfl⟩

/-- An in-range checked table access succeeds. -/
theorem oks_at2E {β : Type} {l : List (List β)} {k i : Nat}
    (hk : k < l.length) (hrow : ∀ row ∈ l, i < row.length) :
    Oks (at2E l k i) := by
  rw [at2E_eq_optE]
  unfold tget
  rw [List.getElem?_eq_getElem hk]
  have hi : i < l[k].length :=
    hrow _ (List.getElem?_mem (List.getElem?_eq_getElem hk))
  refine ⟨l[k][i], ?_⟩
  show optE (l[k][i]?) = _
  rw [List.getElem?_eq_getElem hi]
  rfl

/-- Sequencing preserves success when every continuation succeeds. -/
theorem oks_bind {β γ : Type} {x : Except Err β} {f : β → Except Err γ}
    (hx : Oks x) (hf : ∀ v, Oks (f v)) : Oks (x >>= f) := by
  obtain ⟨v, hv⟩ := hx
  rw [hv, ok_bind]
  exact hf v

/-- A `pure` result is a success. -/
theorem oks_pure {β : Type} (v : β) : Oks (pure v : Except Err β) := ⟨v, rfl⟩

/-- Index arithmetic of the step loop: `n - 1` does not wrap for `n ≥ 1`. -/
theorem wsub_one_of_le {n : Nat} (h : 1 ≤ n) : wsub n 1 = n - 1 := if_pos h

section Bounds

variable {α : Type} [LinearOrderedField α] (pr : Prims α)
  {p : EPKEParameters α} {st : SolverState α} {n : Nat}

/-- `computeDT` succeeds on every in-range post-seed index. -/
theorem computeDT_ok (h1 : 1 ≤ n) (hn : n < p.getNumTimeSteps) :
    Oks (computeDT p n) := by
  unfold computeDT EPKEParameters.getTime
  refine oks_bind (oks_atE hn) (fun _ => ?_)
  refine oks_bind (oks_atE ?_) (fun _ => oks_pure _)
  rw [wsub_one_of_le h1]
  exact Nat.lt_of_le_of_lt (Nat.sub_le n 1) hn

/-- `computeGamma` succeeds on every in-range post-seed index. -/
theorem computeGamma_ok (h1 : 1 ≤ n) (hn : n < p.getNumTimeSteps) :
    Oks (computeGamma p n) := by
  unfold computeGamma
  by_cases h2 : n < 2
  · rw [if_pos h2]; exact oks_pure _
  · rw [if_neg h2]
    refine oks_bind (computeDT_ok (by omega) (by omega)) (fun _ => ?_)
    exact oks_bind (computeDT_ok h1 hn) (fun _ => oks_pure _)

/-- The extrapolation-rate policy succeeds on every in-range post-seed
index. -/
theorem stepUsedAlpha_ok (hpw : st.power.length = p.getNumTimeSteps)
    (h1 : 1 ≤ n) (hn : n < p.getNumTimeSteps) (a : α) :
    Oks (stepUsedAlpha pr p st n a) := by
  unfold stepUsedAlpha
  by_cases h2 : 1 < n
  · rw [if_pos h2]
    refine oks_bind (computeDT_ok (by omega) (by omega)) (fun _ => ?_)
    refine oks_bind (oks_atE (by rw [hpw]; omega)) (fun _ => ?_)
    exact oks_bind (oks_atE (by rw [hpw]; omega)) (fun _ => oks_pure _)
  · rw [if_neg h2]; exact oks_pure _

/-- `computeOmega` succeeds for every group on every in-range post-seed
index. -/
theorem computeOmega_ok {k : Nat} (hWF : WFParams p) (h1 : 1 ≤ n)
    (hn : n < p.getNumTimeSteps) (hk : k < p.getNumPrecursors) (w gamma : α) :
    Oks (computeOmega pr p k n w gamma) := by
  obtain ⟨hlam, hbl, hbr, _, hgt, _, _, _⟩ := hWF
  unfold computeOmega EPKEParameters.getDecayConstant
    EPKEParameters.getGenTime EPKEParameters.getDelayedFraction
  refine oks_bind (oks_at2E hk (fun row hr => by rw [hlam row hr]; exact hn))
    (fun _ => ?_)
  refine oks_bind (computeDT_ok h1 hn) (fun _ => ?_)
  refine oks_bind (oks_atE (by rw [hgt]; omega)) (fun _ => ?_)
  refine oks_bind (oks_atE (by rw [hgt]; exact hn)) (fun _ => ?_)
  refine oks_bind (oks_at2E (by rw [hbl]; exact hk)
    (fun row hr => by rw [hbr row hr]; exact hn)) (fun _ => oks_pure _)

/-- `computeZetaHat` succeeds for every group on every in-range post-seed
index of a well-formed state. -/
theorem computeZetaHat_ok {k : Nat} (hWF : WFParams p) (hst : WFState p st)
    (h1 : 1 ≤ n) (hn : n < p.getNumTimeSteps) (hk : k < p.getNumPrecursors)
    (w gamma : α) : Oks (computeZetaHat pr p st k n w gamma) := by
  obtain ⟨hlam, hbl, hbr, _, hgt, _, _, _⟩ := hWF
  obtain ⟨hpw, _, hcl, hcr, _, _⟩ := hst
  unfold computeZetaHat EPKEParameters.getDecayConstant
    EPKEParameters.getGenTime EPKEParameters.getDelayedFraction
  refine oks_bind (oks_at2E hk (fun row hr => by rw [hlam row hr]; exact hn))
    (fun _ => ?_)
  refine oks_bind (computeDT_ok h1 hn) (fun _ => ?_)
  refine oks_bind ?_ (fun _ => ?_)
  · by_cases h2 : n < 2
    · rw [if_pos h2]
      rw [wsub_one_of_le h1]
      refine oks_bind (oks_at2E (by rw [hbl]; exact hk)
        (fun row hr => by rw [hbr row hr]; omega)) (fun _ => ?_)
      refine oks_bind (oks_atE (by rw [hpw]; omega)) (fun _ => ?_)
      exact oks_bind (oks_atE (by rw [hgt]; omega)) (fun _ => oks_pure _)
    · rw [if_neg h2]
      refine oks_bind (oks_at2E (by rw [hbl]; exact hk)
        (fun row hr => by rw [hbr row hr]; omega)) (fun _ => ?_)
      refine oks_bind (oks_atE (by rw [hpw]; omega)) (fun _ => ?_)
      exact oks_bind (oks_atE (by rw [hgt]; omega)) (fun _ => oks_pure _)
  · rw [wsub_one_of_le h1]
    refine oks_bind (oks_at2E (by rw [hcl]; exact hk)
      (fun row hr => by rw [hcr row hr]; omega)) (fun _ => ?_)
    refine oks_bind (oks_atE (by rw [hpw]; omega)) (fun _ => ?_)
    refine oks_bind (oks_at2E (by rw [hbl]; exact hk)
      (fun row hr => by rw [hbr row hr]; omega)) (fun _ => ?_)
    refine oks_bind (oks_atE (by rw [hgt]; omega)) (fun _ => ?_)
    exact oks_bind (oks_atE (by rw [hgt]; omega)) (fun _ => oks_pure _)

/-- `computeA1B1` succeeds on every in-range post-seed index of a
well-formed state. -/
theorem computeA1B1_ok (hWF : WFParams p) (hst : WFState p st)
    (h1 : 1 ≤ n) (hn : n < p.getNumTimeSteps) (gamma : α) :
    Oks (computeA1B1 pr p st n gamma) := by
  obtain ⟨_, _, _, _, _, hlh, hpn, hri⟩ := hWF
  obtain ⟨hpw, hrho, _, _, _, _⟩ := hst
  unfold computeA1B1 EPKEParameters.getLambdaH EPKEParameters.getPowNorm
    EPKEParameters.getRhoImp
  refine oks_bind (oks_atE (by rw [hlh]; exact hn)) (fun _ => ?_)
  refine oks_bind (computeDT_ok h1 hn) (fun _ => ?_)
  refine oks_bind ?_ (fun _ => ?_)
  · by_cases h2 : n < 2
    · rw [if_pos h2, wsub_one_of_le h1]
      refine oks_bind (oks_atE (by rw [hpn]; omega)) (fun _ => ?_)
      exact oks_bind (oks_atE (by rw [hpw]; omega)) (fun _ => oks_pure _)
    · rw [if_neg h2]
      refine oks_bind (oks_atE (by rw [hpn]; omega)) (fun _ => ?_)
      exact oks_bind (oks_atE (by rw [hpw]; omega)) (fun _ => oks_pure _)
  · rw [wsub_one_of_le h1]
    refine oks_bind (oks_atE (by rw [hpn]; exact hn)) (fun _ => ?_)
    refine oks_bind (oks_atE (by rw [hri]; exact hn)) (fun _ => ?_)
    refine oks_bind (oks_atE (by rw [hrho]; omega)) (fun _ => ?_)
    refine oks_bind (oks_atE (by rw [hri]; omega)) (fun _ => ?_)
    refine oks_bind (oks_atE (by rw [hpw]; omega)) (fun _ => ?_)
    refine oks_bind (oks_atE (by rw [hpn]; omega)) (fun _ => ?_)
    exact oks_bind (oks_atE (by rw [hpw]; omega)) (fun _ => oks_pure _)

/-- `coefA` succeeds on every in-range post-seed index. -/
theorem coefA_ok (hWF : WFParams p) (h1 : 1 ≤ n)
    (hn : n < p.getNumTimeSteps) (ab : α × α) : Oks (coefA p n ab) := by
  obtain ⟨_, _, _, _, hgt, _, _, _⟩ := hWF
  unfold coefA EPKEParameters.getGenTime
  refine oks_bind (computeDT_ok h1 hn) (fun _ => ?_)
  exact oks_bind (oks_atE (by rw [hgt]; exact hn)) (fun _ => oks_pure _)

/-- `coefB` succeeds on every in-range post-seed index. -/
theorem coefB_ok (hWF : WFParams p) (h1 : 1 ≤ n)
    (hn : n < p.getNumTimeSteps) (alpha : α) (ab : α × α) (tau : α) :
    Oks (coefB p n alpha ab tau) := by
  obtain ⟨_, _, _, hbe, hgt, _, _, _⟩ := hWF
  unfold coefB EPKEParameters.getGenTime EPKEParameters.getBetaEff
  refine oks_bind (computeDT_ok h1 hn) (fun _ => ?_)
  refine oks_bind (oks_atE (by rw [hgt]; exact hn)) (fun _ => ?_)
  refine oks_bind (oks_atE (by rw [hbe]; exact hn)) (fun _ => ?_)
  exact oks_bind (oks_atE (by rw [hgt]; omega)) (fun _ => oks_pure _)

/-- `coefC` succeeds on every in-range post-seed index of a well-formed
state. -/
theorem coefC_ok (hWF : WFParams p) (hst : WFState p st) (h1 : 1 ≤ n)
    (hn : n < p.getNumTimeSteps) (alpha s_hat_d s_d_prev : α) :
    Oks (coefC pr p st n alpha s_hat_d s_d_prev) := by
  obtain ⟨_, _, _, hbe, hgt, _, _, _⟩ := hWF
  obtain ⟨hpw, hrho, _, _, _, _⟩ := hst
  unfold coefC EPKEParameters.getGenTime EPKEParameters.getBetaEff
  refine oks_bind (computeDT_ok h1 hn) (fun _ => ?_)
  refine oks_bind (oks_atE (by rw [hgt]; omega)) (fun _ => ?_)
  rw [wsub_one_of_le h1]
  refine oks_bind (oks_atE (by rw [hrho]; omega)) (fun _ => ?_)
  refine oks_bind (oks_atE (by rw [hbe]; omega)) (fun _ => ?_)
  refine oks_bind (oks_atE (by rw [hgt]; omega)) (fun _ => ?_)
  exact oks_bind (oks_atE (by rw [hpw]; omega)) (fun _ => oks_pure _)

/-- `computeABC` either succeeds or fails with the regime error naming the
step. -/
theorem computeABC_ok_or_regime (hWF : WFParams p) (hst : WFState p st)
    (h1 : 1 ≤ n) (hn : n < p.getNumTimeSteps)
    (alpha : α) (ab : α × α) (tau s_hat_d s_d_prev : α) :
    Oks (computeABC pr p st n alpha ab tau s_hat_d s_d_prev) ∨
      computeABC pr p st n alpha ab tau s_hat_d s_d_prev =
        Except.error (Err.invalidStepRegime n) := by
  obtain ⟨a, hA⟩ := coefA_ok hWF h1 hn ab
  obtain ⟨b, hB⟩ := coefB_ok hWF h1 hn alpha ab tau
  obtain ⟨c, hC⟩ := coefC_ok pr hWF hst h1 hn alpha s_hat_d s_d_prev
  simp only [computeABC, hA, hB, hC, ok_bind]
  by_cases hlt : a < 0
  · left; rw [if_pos hlt]; exact oks_pure _
  · rw [if_neg hlt]
    by_cases h0 : a = 0
    · left; rw [if_pos h0]; exact oks_pure _
    · right; rw [if_neg h0]

/-- The precursor loop succeeds whenever the group indices are in range,
and it preserves the lengths of the scratch vectors. -/
theorem powerLoop_ok (hWF : WFParams p) (hst : WFState p st) (h1 : 1 ≤ n)
    (hn : n < p.getNumTimeSteps) (gamma : α) :
    ∀ (ks : List Nat), (∀ k ∈ ks, k < p.getNumPrecursors) →
    ∀ (om ze : List α), (∀ k ∈ ks, k < om.length) →
      (∀ k ∈ ks, k < ze.length) → ∀ (tau shat sdp : α),
    ∃ acc, powerLoop pr p st n gamma ks (om, ze, tau, shat, sdp) =
        Except.ok acc ∧
      acc.1.length = om.length ∧ acc.2.1.length = ze.length
  | [], _, om, ze, _, _, tau, shat, sdp =>
      ⟨(om, ze, tau, shat, sdp), rfl, rfl, rfl⟩
  | k :: ks, hks, om, ze, hom, hze, tau, shat, sdp => by
      have hk : k < p.getNumPrecursors := hks k (List.mem_cons_self k ks)
      obtain ⟨lam, hlamk⟩ : Oks (p.getDecayConstant k n) :=
        oks_at2E hk (fun row hr => by rw [hWF.1 row hr]; exact hn)
      obtain ⟨dt, hdt⟩ := computeDT_ok h1 hn
      obtain ⟨ov, hov⟩ :=
        computeOmega_ok pr hWF h1 hn hk (1 / pr.E lam dt) gamma
      obtain ⟨zv, hzv⟩ :=
        computeZetaHat_ok pr hWF hst h1 hn hk (1 / pr.E lam dt) gamma
      obtain ⟨omk, homk⟩ : Oks (atE (om.set k ov) k) :=
        oks_atE (by rw [List.length_set]; exact hom k (List.mem_cons_self k ks))
      obtain ⟨zek, hzek⟩ : Oks (atE (ze.set k zv) k) :=
        oks_atE (by rw [List.length_set]; exact hze k (List.mem_cons_self k ks))
      obtain ⟨lamp, hlamp⟩ : Oks (p.getDecayConstant k (wsub n 1)) := by
        rw [wsub_one_of_le h1]
        exact oks_at2E hk (fun row hr => by rw [hWF.1 row hr]; omega)
      obtain ⟨ck, hck⟩ : Oks (at2E st.concentrations k (wsub n 1)) := by
        rw [wsub_one_of_le h1]
        exact oks_at2E (by rw [hst.2.2.1]; exact hk)
          (fun row hr => by rw [hst.2.2.2.1 row hr]; omega)
      obtain ⟨acc, hacc, hl1, hl2⟩ :=
        powerLoop_ok hWF hst h1 hn gamma ks
          (fun i hi => hks i (List.mem_cons_of_mem k hi))
          (om.set k ov) (ze.set k zv)
          (fun i hi => by
            rw [List.length_set]; exact hom i (List.mem_cons_of_mem k hi))
          (fun i hi => by
            rw [List.length_set]; exact hze i (List.mem_cons_of_mem k hi))
          (tau + lam * omk) (shat + lam * zek) (sdp + lamp * ck)
      refine ⟨acc, ?_, ?_, ?_⟩
      · simp only [powerLoop, hlamk, hdt, hov, hzv, homk, hzek, hlamp, hck,
          ok_bind]
        exact hacc
      · rw [hl1, List.length_set]
      · rw [hl2, List.length_set]

/-- `computePower` either succeeds, with group-sized scratch outputs, or
fails with the regime error naming the step. -/
theorem computePower_ok_or_regime (hWF : WFParams p) (hst : WFState p st)
    (h1 : 1 ≤ n) (hn : n < p.getNumTimeSteps) (alpha gamma : α) :
    (∃ v, computePower pr p st n alpha gamma = Except.ok v ∧
      v.2.1.length = p.getNumPrecursors ∧
      v.2.2.length = p.getNumPrecursors) ∨
    computePower pr p st n alpha gamma =
      Except.error (Err.invalidStepRegime n) := by
  obtain ⟨acc, hacc, hl1, hl2⟩ :=
    powerLoop_ok pr hWF hst h1 hn gamma
      (List.range p.getNumPrecursors)
      (fun i hi => List.mem_range.mp hi)
      st.omega st.zeta_hat
      (fun i hi => by rw [hst.2.2.2.2.1]; exact List.mem_range.mp hi)
      (fun i hi => by rw [hst.2.2.2.2.2]; exact List.mem_range.mp hi)
      0 0 0
  obtain ⟨ab, hab⟩ := computeA1B1_ok pr hWF hst h1 hn gamma
  rcases computeABC_ok_or_regime pr hWF hst h1 hn alpha ab
      acc.2.2.1 acc.2.2.2.1 acc.2.2.2.2 with ⟨pv, hpv⟩ | hreg
  · left
    refine ⟨(pv, acc.1, acc.2.1), ?_, ?_, ?_⟩
    · simp only [computePower, hacc, hab, hpv, ok_bind]
      rfl
    · show acc.1.length = _
      rw [hl1, hst.2.2.2.2.1]
    · show acc.2.1.length = _
      rw [hl2, hst.2.2.2.2.2]
  · right
    simp only [computePower, hacc, hab, hreg, ok_bind, error_bind]

/-- The concentration-update loop succeeds whenever the group indices are
within the scratch vectors and the step index is within the power buffer. -/
theorem concLoop_ok (n' : Nat) :
    ∀ (ks : List Nat) (st' : SolverState α),
    (∀ k ∈ ks, k < st'.omega.length) → (∀ k ∈ ks, k < st'.zeta_hat.length) →
    n' < st'.power.length →
    ∃ stA, concLoop n' ks st' = Except.ok stA
  | [], st', _, _, _ => ⟨st', rfl⟩
  | k :: ks, st', hom, hze, hpw => by
      obtain ⟨pn, hpn⟩ : Oks (atE st'.power n') := oks_atE hpw
      obtain ⟨omk, homk⟩ : Oks (atE st'.omega k) :=
        oks_atE (hom k (List.mem_cons_self k ks))
      obtain ⟨zk, hzk⟩ : Oks (atE st'.zeta_hat k) :=
        oks_atE (hze k (List.mem_cons_self k ks))
      obtain ⟨stA, hstA⟩ := concLoop_ok n' ks
        { st' with concentrations := set2 st'.concentrations k n' (pn * omk + zk) }
        (fun i hi => hom i (List.mem_cons_of_mem k hi))
        (fun i hi => hze i (List.mem_cons_of_mem k hi)) hpw
      exact ⟨stA, by simp only [concLoop, hpn, homk, hzk, ok_bind]; exact hstA⟩

/-- A step on a well-formed state either succeeds, preserving
well-formedness, or fails with the regime error naming the step. -/
theorem stepE_ok_or_regime (hWF : WFParams p) (hst : WFState p st)
    (h1 : 1 ≤ n) (hn : n < p.getNumTimeSteps) (a : α) :
    (∃ a' st', stepE pr p n a st = Except.ok (a', st') ∧ WFState p st') ∨
    stepE pr p n a st = Except.error (Err.invalidStepRegime n) := by
  obtain ⟨gamma, hg⟩ := computeGamma_ok h1 hn
  obtain ⟨alpha, hal⟩ := stepUsedAlpha_ok pr hst.1 h1 hn a
  rcases computePower_ok_or_regime pr hWF hst h1 hn alpha gamma with
    ⟨pos, hpos, hol, hzl⟩ | hreg
  · left
    set st1 : SolverState α :=
      { st with
        power := st.power.set n pos.1,
        omega := pos.2.1,
        zeta_hat := pos.2.2 } with hst1
    have hst1WF : WFState p st1 := by
      refine ⟨?_, hst.2.1, hst.2.2.1, hst.2.2.2.1, hol, hzl⟩
      show (st.power.set n pos.1).length = _
      rw [List.length_set]; exact hst.1
    obtain ⟨st2, hst2⟩ := concLoop_ok n (List.range p.getNumPrecursors) st1
      (fun i hi => by rw [hst1WF.2.2.2.2.1]; exact List.mem_range.mp hi)
      (fun i hi => by rw [hst1WF.2.2.2.2.2]; exact List.mem_range.mp hi)
      (by rw [hst1WF.1]; exact hn)
    obtain ⟨c1, c2, c3, c4, c5, c6, c7⟩ := concLoop_frame n _ _ _ hst2
    have hst2WF : WFState p st2 := by
      refine ⟨by rw [c1]; exact hst1WF.1, by rw [c2]; exact hst1WF.2.1,
        by rw [c5]; exact hst1WF.2.2.1, ?_, by rw [c3]; exact hst1WF.2.2.2.2.1,
        by rw [c4]; exact hst1WF.2.2.2.2.2⟩
      intro row hrow
      obtain ⟨k, hk⟩ := List.mem_iff_getElem?.mp hrow
      have := c6 k
      rw [rowLen, rowLen, hk] at this
      cases hrow1 : st1.concentrations[k]? with
      | none => rw [hrow1] at this; exact Option.noConfusion this
      | some row1 =>
          rw [hrow1] at this
          have hlen : row.length = row1.length := by
            simpa using this
          rw [hlen]
          exact hst1WF.2.2.2.1 row1 (List.getElem?_mem hrow1)
    obtain ⟨ab, hab⟩ := computeA1B1_ok pr hWF hst2WF h1 hn gamma
    obtain ⟨pn, hpn⟩ : Oks (atE st2.power n) :=
      oks_atE (by rw [hst2WF.1]; exact hn)
    refine ⟨alpha, { st2 with rho := st2.rho.set n (ab.1 * pn + ab.2) }, ?_, ?_⟩
    · simp only [stepE, hg, hal, hpos, ok_bind]
      rw [← hst1, hst2, ok_bind, hab, ok_bind, hpn, ok_bind]
      rfl
    · refine ⟨hst2WF.1, ?_, hst2WF.2.2.1, hst2WF.2.2.2.1,
        hst2WF.2.2.2.2.1, hst2WF.2.2.2.2.2⟩
      show (st2.rho.set n _).length = _
      rw [List.length_set]; exact hst2WF.2.1
  · right
    simp only [stepE, hg, hal, hreg, ok_bind, error_bind]

/-- Over post-seed indices of a well-formed solver, the step loop never hits
an out-of-range access: it either completes or stops at a regime error. -/
theorem runSteps_ok_or_regime :
    ∀ (ns : List Nat) (a : α) (st' : SolverState α), WFParams p →
    WFState p st' → (∀ i ∈ ns, 1 ≤ i ∧ i < p.getNumTimeSteps) →
    (runSteps pr p ns (a, st')).2 = none ∨
      ∃ m, (runSteps pr p ns (a, st')).2 = some (Err.invalidStepRegime m)
  | [], _, _, _, _, _ => Or.inl rfl
  | n' :: ns, a, st', hWF, hst', hin => by
      rcases stepE_ok_or_regime pr hWF hst'
          (hin n' (List.mem_cons_self n' ns)).1
          (hin n' (List.mem_cons_self n' ns)).2 a with
        ⟨a', stN, hstep, hWFN⟩ | hstep
      · have := runSteps_ok_or_regime ns a' stN hWF hWFN
          (fun i hi => hin i (List.mem_cons_of_mem n' hi))
        simpa only [runSteps, hstep] using this
      · right
        refine ⟨n', ?_⟩
        simp only [runSteps, hstep]

/-- The acceptance criterion's reads succeed on every in-range post-seed
index. -/
theorem acceptTransformation_ok {stA : SolverState α}
    (hpw : stA.power.length = p.getNumTimeSteps) (h1 : 1 ≤ n)
    (hn : n < p.getNumTimeSteps) (alpha gamma : α) :
    Oks (acceptTransformation pr p stA n alpha gamma) := by
  unfold acceptTransformation
  refine oks_bind ?_ (fun _ => ?_)
  · by_cases h2 : n < 2
    · rw [if_pos h2, wsub_one_of_le h1]
      exact oks_atE (by rw [hpw]; omega)
    · rw [if_neg h2]
      exact oks_atE (by rw [hpw]; omega)
  · refine oks_bind (computeDT_ok h1 hn) (fun _ => ?_)
    refine oks_bind (oks_atE (by rw [hpw]; exact hn)) (fun _ => ?_)
    rw [wsub_one_of_le h1]
    exact oks_bind (oks_atE (by rw [hpw]; omega)) (fun _ => oks_pure _)

/-- On a well-formed state, the step that computes (and discards) the
acceptance criterion equals the implemented step. -/
theorem stepAcceptE_eq_stepE (hWF : WFParams p) (hst : WFState p st)
    (h1 : 1 ≤ n) (hn : n < p.getNumTimeSteps) (a : α) :
    stepAcceptE pr p n a st = stepE pr p n a st := by
  cases hg : computeGamma p n with
  | error e => simp only [stepAcceptE, stepE, hg, error_bind]
  | ok gamma =>
      cases hal : stepUsedAlpha pr p st n a with
      | error e => simp only [stepAcceptE, stepE, hg, hal, ok_bind, error_bind]
      | ok alpha =>
          cases hpos : computePower pr p st n alpha gamma with
          | error e =>
              simp only [stepAcceptE, stepE, hg, hal, hpos, ok_bind, error_bind]
          | ok pos =>
              obtain ⟨bv, hbv⟩ : Oks (acceptTransformation pr p
                  { st with
                    power := st.power.set n pos.1,
                    omega := pos.2.1,
                    zeta_hat := pos.2.2 } n alpha gamma) :=
                acceptTransformation_ok pr
                  (show (st.power.set n pos.1).length = p.getNumTimeSteps by
                    rw [List.length_set]; exact hst.1) h1 hn alpha gamma
              simp only [stepAcceptE, stepE, hg, hal, hpos, ok_bind, hbv]

/-- Over post-seed indices of a well-formed solver, the loop that computes
the discarded acceptance criterion at every step produces exactly the
implemented loop's result. -/
theorem runStepsAccept_eq :
    ∀ (ns : List Nat) (a : α) (stA : SolverState α), WFParams p →
    WFState p stA → (∀ i ∈ ns, 1 ≤ i ∧ i < p.getNumTimeSteps) →
    runStepsAccept pr p ns (a, stA) = runSteps pr p ns (a, stA)
  | [], _, _, _, _, _ => rfl
  | n' :: ns, a, stA, hWF, hstA, hin => by
      have hEq := stepAcceptE_eq_stepE pr hWF hstA
        (hin n' (List.mem_cons_self n' ns)).1
        (hin n' (List.mem_cons_self n' ns)).2 a
      rcases stepE_ok_or_regime pr hWF hstA
          (hin n' (List.mem_cons_self n' ns)).1
          (hin n' (List.mem_cons_self n' ns)).2 a with
        ⟨a', stN, hstep, hWFN⟩ | hstep
      · simp only [runStepsAccept, runSteps, hEq, hstep]
        exact runStepsAccept_eq ns a' stN hWF hWFN
          (fun i hi => hin i (List.mem_cons_of_mem n' hi))
      · simp only [runStepsAccept, runSteps, hEq, hstep]

end Bounds

/-! ## Dependency of a step on the history below its index -/

/-- Two buffer states agreeing on all three history sequences strictly below
index `n`. -/
def HistAgreeLT {β : Type} (stA stB : SolverState β) (n : Nat) : Prop :=
  (∀ m, m < n → stA.power[m]? = stB.power[m]?) ∧
  (∀ m, m < n → stA.rho[m]? = stB.rho[m]?) ∧
  (∀ k m, m < n → tget stA.concentrations k m = tget stB.concentrations k m)

/-- A checked access only depends on the optional entry. -/
theorem atE_congr {β : Type} {l1 l2 : List β} {i : Nat}
    (h : l1[i]? = l2[i]?) : atE l1 i = atE l2 i := by
  rw [atE_eq_optE, atE_eq_optE, h]

/-- A checked table access only depends on the optional entry. -/
theorem at2E_congr {β : Type} {l1 l2 : List (List β)} {k i : Nat}
    (h : tget l1 k i = tget l2 k i) : at2E l1 k i = at2E l2 k i := by
  rw [at2E_eq_optE, at2E_eq_optE, h]

/-- Reading back a just-written entry gives the same result on two vectors
of the same length. -/
theorem atE_set_congr {β : Type} {l1 l2 : List β} (hlen : l1.length = l2.length)
    (i : Nat) (v : β) : atE (l1.set i v) i = atE (l2.set i v) i := by
  by_cases h : i < l1.length
  · rw [atE_eq_optE, atE_eq_optE, List.getElem?_set_self h,
      List.getElem?_set_self (by rw [← hlen]; exact h)]
  · rw [List.set_eq_of_length_le (by omega), List.set_eq_of_length_le (by omega)]
    rw [atE_eq_optE, atE_eq_optE, List.getElem?_eq_none (by omega),
      List.getElem?_eq_none (by omega)]

/-- Writing the same value at the same spot preserves column-wise agreement
of two tables of equal dimensions. -/
theorem tget_set2_congr {β : Type} {lA lB : List (List β)}
    (hlen : lA.length = lB.length) (hrow : ∀ j, rowLen lA j = rowLen lB j)
    {k' m : Nat} (h : tget lA k' m = tget lB k' m) (k n : Nat) (v : β) :
    tget (set2 lA k n v) k' m = tget (set2 lB k n v) k' m := by
  rcases eq_or_ne m n with hm | hm
  · subst hm
    rcases eq_or_ne k' k with hk | hk
    · subst hk
      unfold set2
      cases hA : lA[k']? with
      | none =>
          have hB : lB[k']? = none := by
            have h1 := List.getElem?_eq_none_iff.mp hA
            exact List.getElem?_eq_none (by omega)
          rw [hB, h]
      | some rowA =>
          have hkA : k' < lA.length := (List.getElem?_eq_some_iff.mp hA).1
          cases hB : lB[k']? with
          | none =>
              have := List.getElem?_eq_none_iff.mp hB
              omega
          | some rowB =>
              have hrl : rowA.length = rowB.length := by
                have := hrow k'
                rw [rowLen, rowLen, hA, hB] at this
                simpa using this
              unfold tget
              rw [List.getElem?_set_self hkA,
                List.getElem?_set_self (by omega)]
              show (rowA.set m v)[m]? = (rowB.set m v)[m]?
              by_cases hmrow : m < rowA.length
              · rw [List.getElem?_set_self hmrow,
                  List.getElem?_set_self (by omega)]
              · rw [List.set_eq_of_length_le (by omega),
                  List.set_eq_of_length_le (by omega)]
                unfold tget at h
                rw [hA, hB] at h
                exact h
    · unfold set2
      cases hA : lA[k]? with
      | none =>
          have hB : lB[k]? = none := by
            have h1 := List.getElem?_eq_none_iff.mp hA
            exact List.getElem?_eq_none (by omega)
          rw [hB, h]
      | some rowA =>
          have hkA : k < lA.length := (List.getElem?_eq_some_iff.mp hA).1
          cases hB : lB[k]? with
          | none =>
              have := List.getElem?_eq_none_iff.mp hB
              omega
          | some rowB =>
              unfold tget
              rw [List.getElem?_set_ne (fun hc => hk hc.symm),
                List.getElem?_set_ne (fun hc => hk hc.symm)]
              exact h
  · rw [tget_set2_ne _ _ _ _ _ _ hm, tget_set2_ne _ _ _ _ _ _ hm]
    exact h

section Congruence

variable {α : Type} [LinearOrderedField α] (pr : Prims α)
  {p : EPKEParameters α} {stA stB : SolverState α} {n : Nat} {gamma : α}

/-- The extrapolation-rate policy only reads power entries below `n`. -/
theorem stepUsedAlpha_congr (h1 : 1 ≤ n)
    (hAg : ∀ m, m < n → stA.power[m]? = stB.power[m]?) (a : α) :
    stepUsedAlpha pr p stA n a = stepUsedAlpha pr p stB n a := by
  unfold stepUsedAlpha
  by_cases h2 : 1 < n
  · rw [if_pos h2, if_pos h2,
      atE_congr (hAg (n - 1) (by omega)), atE_congr (hAg (n - 2) (by omega))]
  · rw [if_neg h2, if_neg h2]

/-- `computeZetaHat` only reads history entries below `n`. -/
theorem computeZetaHat_congr {k : Nat} (h1 : 1 ≤ n)
    (hAg : HistAgreeLT stA stB n) (w : α) :
    computeZetaHat pr p stA k n w gamma = computeZetaHat pr p stB k n w gamma := by
  obtain ⟨hpw, _, hconc⟩ := hAg
  unfold computeZetaHat
  have hw1 : wsub n 1 < n := by rw [wsub_one_of_le h1]; omega
  by_cases h2 : n < 2
  · rw [if_pos h2, atE_congr (hpw (wsub n 1) hw1),
      at2E_congr (hconc k (wsub n 1) hw1), if_pos h2]
  · rw [if_neg h2, atE_congr (hpw (n - 2) (by omega)),
      at2E_congr (hconc k (wsub n 1) hw1), atE_congr (hpw (wsub n 1) hw1),
      if_neg h2]

/-- `computeA1B1` only reads history entries below `n`. -/
theorem computeA1B1_congr (h1 : 1 ≤ n) (hAg : HistAgreeLT stA stB n) :
    computeA1B1 pr p stA n gamma = computeA1B1 pr p stB n gamma := by
  obtain ⟨hpw, hrho, _⟩ := hAg
  unfold computeA1B1
  have hw1 : wsub n 1 < n := by rw [wsub_one_of_le h1]; omega
  by_cases h2 : n < 2
  · rw [if_pos h2, atE_congr (hpw (wsub n 1) hw1),
      atE_congr (hrho (wsub n 1) hw1), atE_congr (hpw 0 h1), if_pos h2]
  · rw [if_neg h2, atE_congr (hpw (n - 2) (by omega)),
      atE_congr (hrho (wsub n 1) hw1), atE_congr (hpw 0 h1),
      atE_congr (hpw (wsub n 1) hw1), if_neg h2]

/-- `coefC` only reads history entries below `n`. -/
theorem coefC_congr (h1 : 1 ≤ n) (hAg : HistAgreeLT stA stB n)
    (alpha s_hat_d s_d_prev : α) :
    coefC pr p stA n alpha s_hat_d s_d_prev =
      coefC pr p stB n alpha s_hat_d s_d_prev := by
  obtain ⟨hpw, hrho, _⟩ := hAg
  unfold coefC
  have hw1 : wsub n 1 < n := by rw [wsub_one_of_le h1]; omega
  rw [atE_congr (hrho (wsub n 1) hw1), atE_congr (hpw (wsub n 1) hw1)]

/-- `computeABC` only reads history entries below `n`. -/
theorem computeABC_congr (h1 : 1 ≤ n) (hAg : HistAgreeLT stA stB n)
    (alpha : α) (ab : α × α) (tau s_hat_d s_d_prev : α) :
    computeABC pr p stA n alpha ab tau s_hat_d s_d_prev =
      computeABC pr p stB n alpha ab tau s_hat_d s_d_prev := by
  unfold computeABC
  rw [coefC_congr pr h1 hAg alpha s_hat_d s_d_prev]

end Congruence

/-- Writing at the same spot of two vectors of equal length produces equal
entries there. -/
theorem getElem?_set_congr {β : Type} {l1 l2 : List β}
    (hlen : l1.length = l2.length) (i : Nat) (v : β) :
    (l1.set i v)[i]? = (l2.set i v)[i]? := by
  by_cases h : i < l1.length
  · rw [List.getElem?_set_self h, List.getElem?_set_self (by omega)]
  · rw [List.set_eq_of_length_le (by omega),
      List.set_eq_of_length_le (by omega),
      List.getElem?_eq_none (by omega), List.getElem?_eq_none (by omega)]

/-- Writing at the same spot of two tables of equal dimensions produces
equal entries there, whatever stood there before. -/
theorem tget_set2_self_congr {β : Type} {lA lB : List (List β)}
    (hlen : lA.length = lB.length) (hrow : ∀ j, rowLen lA j = rowLen lB j)
    (k n : Nat) (v : β) :
    tget (set2 lA k n v) k n = tget (set2 lB k n v) k n := by
  unfold set2
  cases hA : lA[k]? with
  | none =>
      have hB : lB[k]? = none := by
        have := List.getElem?_eq_none_iff.mp hA
        exact List.getElem?_eq_none (by omega)
      rw [hB]
      unfold tget
      rw [hA, hB]
  | some rowA =>
      have hkA : k < lA.length := (List.getElem?_eq_some_iff.mp hA).1
      cases hB : lB[k]? with
      | none =>
          have := List.getElem?_eq_none_iff.mp hB
          omega
      | some rowB =>
          have hrl : rowA.length = rowB.length := by
            have := hrow k
            rw [rowLen, rowLen, hA, hB] at this
            simpa using this
          unfold tget
          rw [List.getElem?_set_self hkA, List.getElem?_set_self (by omega)]
          show (rowA.set n v)[n]? = (rowB.set n v)[n]?
          exact getElem?_set_congr hrl n v

/-- Under well-formedness, the optional length of row `j` is the grid length
exactly for the group rows that exist. -/
theorem rowLen_of_WFState {β : Type} {q : EPKEParameters β}
    {s : SolverState β} (h : WFState q s) (j : Nat) :
    rowLen s.concentrations j =
      if j < q.getNumPrecursors then some q.getNumTimeSteps else none := by
  by_cases hj : j < q.getNumPrecursors
  · rw [if_pos hj]
    have hjl : j < s.concentrations.length := by rw [h.2.2.1]; exact hj
    rw [rowLen, List.getElem?_eq_getElem hjl]
    simp [h.2.2.2.1 _ (List.getElem?_mem (List.getElem?_eq_getElem hjl))]
  · rw [if_neg hj, rowLen, List.getElem?_eq_none (by rw [h.2.2.1]; omega)]
    rfl

section Congruence2

variable {α : Type} [LinearOrderedField α] (pr : Prims α)
  {p : EPKEParameters α} {stA stB : SolverState α} {n : Nat} (gamma : α)

/-- The precursor loop depends only on the history below `n` and on the
scratch entries it itself writes: two runs over the same group list from
scratch vectors of equal length that agree outside the groups still to be
processed are equal. -/
theorem powerLoop_congr (h1 : 1 ≤ n) (hAg : HistAgreeLT stA stB n) :
    ∀ (ks : List Nat) (om1 om2 ze1 ze2 : List α) (tau shat sdp : α),
    om1.length = om2.length → ze1.length = ze2.length →
    (∀ j, om1[j]? = om2[j]? ∨ j ∈ ks) →
    (∀ j, ze1[j]? = ze2[j]? ∨ j ∈ ks) →
    powerLoop pr p stA n gamma ks (om1, ze1, tau, shat, sdp) =
      powerLoop pr p stB n gamma ks (om2, ze2, tau, shat, sdp)
  | [], om1, om2, ze1, ze2, tau, shat, sdp, _, _, hjo, hjz => by
      have heo : om1 = om2 :=
        List.ext_getElem? (fun j => (hjo j).resolve_right (by simp))
      have hez : ze1 = ze2 :=
        List.ext_getElem? (fun j => (hjz j).resolve_right (by simp))
      rw [heo, hez]
      rfl
  | k :: ks, om1, om2, ze1, ze2, tau, shat, sdp, hlo, hlz, hjo, hjz => by
      have hw1 : wsub n 1 < n := by rw [wsub_one_of_le h1]; omega
      cases hlam : p.getDecayConstant k n with
      | error e => simp only [powerLoop, hlam, error_bind]
      | ok lam =>
      cases hdt : computeDT p n with
      | error e => simp only [powerLoop, hlam, hdt, ok_bind, error_bind]
      | ok dt =>
      cases hov : computeOmega pr p k n (1 / pr.E lam dt) gamma with
      | error e => simp only [powerLoop, hlam, hdt, hov, ok_bind, error_bind]
      | ok ov =>
      have hzeq : computeZetaHat pr p stA k n (1 / pr.E lam dt) gamma =
          computeZetaHat pr p stB k n (1 / pr.E lam dt) gamma :=
        computeZetaHat_congr pr h1 hAg _
      cases hzv : computeZetaHat pr p stA k n (1 / pr.E lam dt) gamma with
      | error e =>
          have hzvB := hzeq.symm.trans hzv
          simp only [powerLoop, hlam, hdt, hov, hzv, hzvB, ok_bind, error_bind]
      | ok zv =>
      have hzvB := hzeq.symm.trans hzv
      have home : atE (om1.set k ov) k = atE (om2.set k ov) k := by
        rw [atE_eq_optE, atE_eq_optE, getElem?_set_congr hlo k ov]
      cases homk : atE (om1.set k ov) k with
      | error e =>
          have homkB := home.symm.trans homk
          simp only [powerLoop, hlam, hdt, hov, hzv, hzvB, homk, homkB,
            ok_bind, error_bind]
      | ok omk =>
      have homkB := home.symm.trans homk
      have heze : atE (ze1.set k zv) k = atE (ze2.set k zv) k := by
        rw [atE_eq_optE, atE_eq_optE, getElem?_set_congr hlz k zv]
      cases hzek : atE (ze1.set k zv) k with
      | error e =>
          have hzekB := heze.symm.trans hzek
          simp only [powerLoop, hlam, hdt, hov, hzv, hzvB, homk, homkB,
            hzek, hzekB, ok_bind, error_bind]
      | ok zek =>
      have hzekB := heze.symm.trans hzek
      cases hlamp : p.getDecayConstant k (wsub n 1) with
      | error e =>
          simp only [powerLoop, hlam, hdt, hov, hzv, hzvB, homk, homkB,
            hzek, hzekB, hlamp, ok_bind, error_bind]
      | ok lamp =>
      have hcke : at2E stA.concentrations k (wsub n 1) =
          at2E stB.concentrations k (wsub n 1) :=
        at2E_congr (hAg.2.2 k (wsub n 1) hw1)
      cases hck : at2E stA.concentrations k (wsub n 1) with
      | error e =>
          have hckB := hcke.symm.trans hck
          simp only [powerLoop, hlam, hdt, hov, hzv, hzvB, homk, homkB,
            hzek, hzekB, hlamp, hck, hckB, ok_bind, error_bind]
      | ok ck =>
      have hckB := hcke.symm.trans hck
      have hrec := powerLoop_congr h1 hAg ks (om1.set k ov) (om2.set k ov)
        (ze1.set k zv) (ze2.set k zv)
        (tau + lam * omk) (shat + lam * zek) (sdp + lamp * ck)
        (by rw [List.length_set, List.length_set, hlo])
        (by rw [List.length_set, List.length_set, hlz])
        (fun j => by
          rcases eq_or_ne j k with hj | hj
          · subst hj
            exact Or.inl (getElem?_set_congr hlo j ov)
          · rw [List.getElem?_set_ne (fun hc => hj hc.symm),
              List.getElem?_set_ne (fun hc => hj hc.symm)]
            rcases hjo j with he | hm
            · exact Or.inl he
            · exact Or.inr ((List.mem_cons.mp hm).resolve_left hj))
        (fun j => by
          rcases eq_or_ne j k with hj | hj
          · subst hj
            exact Or.inl (getElem?_set_congr hlz j zv)
          · rw [List.getElem?_set_ne (fun hc => hj hc.symm),
              List.getElem?_set_ne (fun hc => hj hc.symm)]
            rcases hjz j with he | hm
            · exact Or.inl he
            · exact Or.inr ((List.mem_cons.mp hm).resolve_left hj))
      simp only [powerLoop, hlam, hdt, hov, hzv, hzvB, homk, homkB,
        hzek, hzekB, hlamp, hck, hckB, ok_bind]
      exact hrec

/-- `computePower` depends only on the history below `n` when both scratch
vectors have one entry per precursor group. -/
theorem computePower_congr (hWFA : WFState p stA) (hWFB : WFState p stB)
    (h1 : 1 ≤ n) (hAg : HistAgreeLT stA stB n) (alpha : α) :
    computePower pr p stA n alpha gamma =
      computePower pr p stB n alpha gamma := by
  have hpl : powerLoop pr p stA n gamma (List.range p.getNumPrecursors)
      (stA.omega, stA.zeta_hat, 0, 0, 0) =
      powerLoop pr p stB n gamma (List.range p.getNumPrecursors)
        (stB.omega, stB.zeta_hat, 0, 0, 0) :=
    powerLoop_congr pr gamma h1 hAg (List.range p.getNumPrecursors)
    stA.omega stB.omega stA.zeta_hat stB.zeta_hat 0 0 0
    (by rw [hWFA.2.2.2.2.1, hWFB.2.2.2.2.1])
    (by rw [hWFA.2.2.2.2.2, hWFB.2.2.2.2.2])
    (fun j => by
      by_cases hj : j < p.getNumPrecursors
      · exact Or.inr (List.mem_range.mpr hj)
      · refine Or.inl ?_
        rw [List.getElem?_eq_none (by rw [hWFA.2.2.2.2.1]; omega),
          List.getElem?_eq_none (by rw [hWFB.2.2.2.2.1]; omega)])
    (fun j => by
      by_cases hj : j < p.getNumPrecursors
      · exact Or.inr (List.mem_range.mpr hj)
      · refine Or.inl ?_
        rw [List.getElem?_eq_none (by rw [hWFA.2.2.2.2.2]; omega),
          List.getElem?_eq_none (by rw [hWFB.2.2.2.2.2]; omega)])
  unfold computePower
  rw [hpl, computeA1B1_congr pr h1 hAg]
  simp only [computeABC_congr pr h1 hAg alpha]

/-- The concentration-update loop depends only on the power entry at `n`,
the scratch vectors and the already-agreeing columns: the two runs fail
together or produce tables agreeing up to column `n`. -/
theorem concLoop_congr :
    ∀ (ks : List Nat) (sA sB : SolverState α),
    sA.power[n]? = sB.power[n]? → sA.omega = sB.omega →
    sA.zeta_hat = sB.zeta_hat →
    sA.concentrations.length = sB.concentrations.length →
    (∀ j, rowLen sA.concentrations j = rowLen sB.concentrations j) →
    (∀ k m, m < n + 1 →
      tget sA.concentrations k m = tget sB.concentrations k m ∨
        (m = n ∧ k ∈ ks)) →
    (∃ e, concLoop n ks sA = Except.error e ∧
      concLoop n ks sB = Except.error e) ∨
    (∃ sA' sB', concLoop n ks sA = Except.ok sA' ∧
      concLoop n ks sB = Except.ok sB' ∧
      sA'.concentrations.length = sB'.concentrations.length ∧
      (∀ j, rowLen sA'.concentrations j = rowLen sB'.concentrations j) ∧
      (∀ k m, m < n + 1 →
        tget sA'.concentrations k m = tget sB'.concentrations k m))
  | [], sA, sB, _, _, _, hcl, hrl, hcols => by
      refine Or.inr ⟨sA, sB, rfl, rfl, hcl, hrl, ?_⟩
      intro k m hm
      exact (hcols k m hm).resolve_right (by simp)
  | k :: ks, sA, sB, hpn, hom, hze, hcl, hrl, hcols => by
      have hpe : atE sA.power n = atE sB.power n := atE_congr hpn
      cases hpv : atE sA.power n with
      | error e =>
          have hpvB := hpe.symm.trans hpv
          exact Or.inl ⟨e, by simp only [concLoop, hpv, error_bind],
            by simp only [concLoop, hpvB, error_bind]⟩
      | ok pn =>
      have hpvB := hpe.symm.trans hpv
      have home : atE sA.omega k = atE sB.omega k := by rw [hom]
      cases homk : atE sA.omega k with
      | error e =>
          have homkB := home.symm.trans homk
          exact Or.inl ⟨e,
            by simp only [concLoop, hpv, homk, ok_bind, error_bind],
            by simp only [concLoop, hpvB, homkB, ok_bind, error_bind]⟩
      | ok omk =>
      have homkB := home.symm.trans homk
      have heze : atE sA.zeta_hat k = atE sB.zeta_hat k := by rw [hze]
      cases hzk : atE sA.zeta_hat k with
      | error e =>
          have hzkB := heze.symm.trans hzk
          exact Or.inl ⟨e,
            by simp only [concLoop, hpv, homk, hzk, ok_bind, error_bind],
            by simp only [concLoop, hpvB, homkB, hzkB, ok_bind, error_bind]⟩
      | ok zk =>
      have hzkB := heze.symm.trans hzk
      have hrec := concLoop_congr ks
        { sA with concentrations := set2 sA.concentrations k n (pn * omk + zk) }
        { sB with concentrations := set2 sB.concentrations k n (pn * omk + zk) }
        hpn hom hze
        (by
          show (set2 sA.concentrations k n _).length = _
          rw [length_set2, length_set2, hcl])
        (fun j => by
          show rowLen (set2 sA.concentrations k n _) j = _
          rw [rowLen_set2, rowLen_set2]
          exact hrl j)
        (fun k' m hm => by
          show tget (set2 sA.concentrations k n _) k' m =
              tget (set2 sB.concentrations k n _) k' m ∨ _
          rcases eq_or_ne m n with hmn | hmn
          · subst hmn
            rcases eq_or_ne k' k with hkk | hkk
            · subst hkk
              exact Or.inl (tget_set2_self_congr hcl hrl k' m _)
            · rcases hcols k' m hm with he | ⟨_, hmem⟩
              · exact Or.inl (tget_set2_congr hcl hrl he k m _)
              · exact Or.inr ⟨rfl, (List.mem_cons.mp hmem).resolve_left hkk⟩
          · rcases hcols k' m hm with he | ⟨hc, _⟩
            · exact Or.inl (tget_set2_congr hcl hrl he k n _)
            · exact absurd hc hmn)
      rcases hrec with ⟨e, hA, hB⟩ | ⟨sA', sB', hA, hB, h3, h4, h5⟩
      · exact Or.inl ⟨e,
          by simp only [concLoop, hpv, homk, hzk, ok_bind]; exact hA,
          by simp only [concLoop, hpvB, homkB, hzkB, ok_bind]; exact hB⟩
      · exact Or.inr ⟨sA', sB',
          by simp only [concLoop, hpv, homk, hzk, ok_bind]; exact hA,
          by simp only [concLoop, hpvB, homkB, hzkB, ok_bind]; exact hB,
          h3, h4, h5⟩

/-- A step depends only on the history strictly below its index: on two
well-formed states agreeing below `n`, the step fails identically or
succeeds with the same carried rate and with buffers agreeing below `n + 1`
— the step's own writes included, so the values written at index `n` are
determined by the history below `n`. -/
theorem stepE_congr (hWFA : WFState p stA) (hWFB : WFState p stB)
    (h1 : 1 ≤ n) (hn : n < p.getNumTimeSteps)
    (hAg : HistAgreeLT stA stB n) (a : α) :
    (∃ e, stepE pr p n a stA = Except.error e ∧
      stepE pr p n a stB = Except.error e) ∨
    (∃ a' stA' stB', stepE pr p n a stA = Except.ok (a', stA') ∧
      stepE pr p n a stB = Except.ok (a', stB') ∧
      HistAgreeLT stA' stB' (n + 1)) := by
  cases hg : computeGamma p n with
  | error e =>
      exact Or.inl ⟨e, by simp only [stepE, hg, error_bind],
        by simp only [stepE, hg, error_bind]⟩
  | ok gam =>
  have hua : stepUsedAlpha pr p stA n a = stepUsedAlpha pr p stB n a :=
    stepUsedAlpha_congr pr h1 hAg.1 a
  cases hal : stepUsedAlpha pr p stA n a with
  | error e =>
      have halB := hua.symm.trans hal
      exact Or.inl ⟨e, by simp only [stepE, hg, hal, ok_bind, error_bind],
        by simp only [stepE, hg, halB, ok_bind, error_bind]⟩
  | ok alpha =>
  have halB := hua.symm.trans hal
  have hcp : computePower pr p stA n alpha gam =
      computePower pr p stB n alpha gam :=
    computePower_congr pr gam hWFA hWFB h1 hAg alpha
  cases hpos : computePower pr p stA n alpha gam with
  | error e =>
      have hposB := hcp.symm.trans hpos
      exact Or.inl ⟨e,
        by simp only [stepE, hg, hal, hpos, ok_bind, error_bind],
        by simp only [stepE, hg, halB, hposB, ok_bind, error_bind]⟩
  | ok pos =>
  have hposB := hcp.symm.trans hpos
  have hplen : stA.power.length = stB.power.length := by
    rw [hWFA.1, hWFB.1]
  have hpn1 : (stA.power.set n pos.1)[n]? = (stB.power.set n pos.1)[n]? :=
    getElem?_set_congr hplen n pos.1
  have hclen : stA.concentrations.length = stB.concentrations.length := by
    rw [hWFA.2.2.1, hWFB.2.2.1]
  have hrowlen : ∀ j, rowLen stA.concentrations j = rowLen stB.concentrations j :=
    fun j => by rw [rowLen_of_WFState hWFA, rowLen_of_WFState hWFB]
  have hcols : ∀ k m, m < n + 1 →
      tget stA.concentrations k m = tget stB.concentrations k m ∨
        (m = n ∧ k ∈ List.range p.getNumPrecursors) := by
    intro k m hm
    rcases Nat.lt_or_ge m n with hmn | hmn
    · exact Or.inl (hAg.2.2 k m hmn)
    · have hmn' : m = n := by omega
      by_cases hk : k < p.getNumPrecursors
      · exact Or.inr ⟨hmn', List.mem_range.mpr hk⟩
      · refine Or.inl ?_
        unfold tget
        rw [List.getElem?_eq_none (by rw [hWFA.2.2.1]; omega),
          List.getElem?_eq_none (by rw [hWFB.2.2.1]; omega)]
  rcases concLoop_congr (List.range p.getNumPrecursors)
      { stA with
        power := stA.power.set n pos.1,
        omega := pos.2.1,
        zeta_hat := pos.2.2 }
      { stB with
        power := stB.power.set n pos.1,
        omega := pos.2.1,
        zeta_hat := pos.2.2 }
      hpn1 rfl rfl hclen hrowlen hcols with
    ⟨e, hA, hB⟩ | ⟨sA', sB', hA, hB, hcl', hrl', hcols'⟩
  · refine Or.inl ⟨e, ?_, ?_⟩
    · simp only [stepE, hg, hal, hpos, ok_bind]
      rw [hA]
      rfl
    · simp only [stepE, hg, halB, hposB, ok_bind]
      rw [hB]
      rfl
  · obtain ⟨a1, a2, _, _, _, _, _⟩ := concLoop_frame n _ _ _ hA
    obtain ⟨b1, b2, _, _, _, _, _⟩ := concLoop_frame n _ _ _ hB
    have hpagree : ∀ m, m < n + 1 → sA'.power[m]? = sB'.power[m]? := by
      intro m hm
      rw [a1, b1]
      show (stA.power.set n pos.1)[m]? = (stB.power.set n pos.1)[m]?
      rcases eq_or_ne m n with hmn | hmn
      · subst hmn
        exact hpn1
      · rw [List.getElem?_set_ne (fun hc => hmn hc.symm),
          List.getElem?_set_ne (fun hc => hmn hc.symm)]
        exact hAg.1 m (by omega)
    have hragree : ∀ m, m < n → sA'.rho[m]? = sB'.rho[m]? := by
      intro m hm
      rw [a2, b2]
      exact hAg.2.1 m hm
    have hAgS : HistAgreeLT sA' sB' n :=
      ⟨fun m hm => hpagree m (by omega), hragree, fun k m hm => hcols' k m (by omega)⟩
    have habE : computeA1B1 pr p sA' n gam = computeA1B1 pr p sB' n gam :=
      computeA1B1_congr pr h1 hAgS
    cases hab : computeA1B1 pr p sA' n gam with
    | error e =>
        have habB := habE.symm.trans hab
        refine Or.inl ⟨e, ?_, ?_⟩
        · simp only [stepE, hg, hal, hpos, ok_bind]
          rw [hA, ok_bind, hab, error_bind]
        · simp only [stepE, hg, halB, hposB, ok_bind]
          rw [hB, ok_bind, habB, error_bind]
    | ok ab =>
    have habB := habE.symm.trans hab
    have hpnE : atE sA'.power n = atE sB'.power n :=
      atE_congr (hpagree n (by omega))
    cases hpn2 : atE sA'.power n with
    | error e =>
        have hpn2B := hpnE.symm.trans hpn2
        refine Or.inl ⟨e, ?_, ?_⟩
        · simp only [stepE, hg, hal, hpos, ok_bind]
          rw [hA, ok_bind, hab, ok_bind, hpn2, error_bind]
        · simp only [stepE, hg, halB, hposB, ok_bind]
          rw [hB, ok_bind, habB, ok_bind, hpn2B, error_bind]
    | ok pnv =>
    have hpn2B := hpnE.symm.trans hpn2
    have hrholen : sA'.rho.length = sB'.rho.length := by
      rw [a2, b2]
      show stA.rho.length = stB.rho.length
      rw [hWFA.2.1, hWFB.2.1]
    refine Or.inr ⟨alpha,
      { sA' with rho := sA'.rho.set n (ab.1 * pnv + ab.2) },
      { sB' with rho := sB'.rho.set n (ab.1 * pnv + ab.2) }, ?_, ?_, ?_, ?_, ?_⟩
    · simp only [stepE, hg, hal, hpos, ok_bind]
      rw [hA, ok_bind, hab, ok_bind, hpn2, ok_bind]
      rfl
    · simp only [stepE, hg, halB, hposB, ok_bind]
      rw [hB, ok_bind, habB, ok_bind, hpn2B, ok_bind]
      rfl
    · exact fun m hm => hpagree m hm
    · intro m hm
      show (sA'.rho.set n _)[m]? = (sB'.rho.set n _)[m]?
      rcases eq_or_ne m n with hmn | hmn
      · subst hmn
        exact getElem?_set_congr hrholen m _
      · rw [List.getElem?_set_ne (fun hc => hmn hc.symm),
          List.getElem?_set_ne (fun hc => hmn hc.symm)]
        exact hragree m (by omega)
    · exact fun k m hm => hcols' k m hm

end Congruence2

/-- Concrete primitive functions over ℚ used to evaluate the embedding on
witnesses: the kernels `k2` and `E` are the constant 1, everything else is
constant 0 or 1. -/
def qPrims : Prims ℚ :=
  ⟨fun _ => 1, fun _ => 0, fun _ => 0, fun _ _ => 0, fun _ _ => 0,
    fun _ _ => 1, fun _ _ => 1⟩

/-- A two-step, one-group parameter set whose feedback gain 1 forces the
quadratic's leading coefficient to be positive at the single post-seed
step. -/
def regimeParams : EPKEParameters ℚ :=
  ⟨[0, 1], [[0, 0]], [[0, 0]], [0, 0], [1, 1], [0, 0], [1, 1], [0, 0], 1, 1, 0⟩

/-- The same grid with feedback gain 0, making the leading coefficient 0 at
every step, so the linear branch is taken and the run completes. -/
def calmParams : EPKEParameters ℚ :=
  ⟨[0, 1], [[0, 0]], [[0, 0]], [0, 0], [1, 1], [0, 0], [1, 1], [0, 0], 1, 0, 0⟩

/-- A one-entry precomputed prefix. -/
def seedOne : EPKEOutput ℚ := ⟨[1], [0], [[1]]⟩

/-- A one-step, zero-group parameter set. -/
def emptySeedParams : EPKEParameters ℚ :=
  ⟨[0], [], [], [0], [1], [0], [1], [0], 1, 0, 0⟩

/-- An empty precomputed prefix: the step loop then starts at `n = 0`. -/
def emptySeed : EPKEOutput ℚ := ⟨[], [], []⟩

/-- A malformed parameter set: the generation-time array has length 1 on a
two-point time grid. -/
def shortParams : EPKEParameters ℚ :=
  ⟨[0, 1], [[0, 0]], [[0, 0]], [0, 0], [1], [0, 0], [1, 1], [0, 0], 1, 0, 0⟩

/-! ## Claims -/

/-- C1: root selection in `computeABC`: with the quadratic coefficients
`(a, b, c)` assembled from θ, dt, the extrapolation rate, the feedback pair,
τ, ŝ_d, s_d_prev and the previous step's history, the computed power is
`(-b - sqrt(b * b - 4 * a * c)) / (2 * a)` when `a < 0` and `-c / b` when
`a = 0`, and when `a > 0` the step fails with the fatal `invalidStepRegime`
error naming the step, rather than returning a value. -/
theorem computeABC_root_selection (pr : Prims α') (p : EPKEParameters α')
    (st : SolverState α') (n : Nat) (alpha : α') (a1b1 : α' × α')
    (tau s_hat_d s_d_prev : α') (a b c : α') [LinearOrderedField α']
    (ha : coefA p n a1b1 = Except.ok a)
    (hb : coefB p n alpha a1b1 tau = Except.ok b)
    (hc : coefC pr p st n alpha s_hat_d s_d_prev = Except.ok c) :
    (a < 0 →
      computeABC pr p st n alpha a1b1 tau s_hat_d s_d_prev =
        Except.ok ((-b - pr.sqrt (b * b - 4 * a * c)) / (2 * a))) ∧
    (a = 0 →
      computeABC pr p st n alpha a1b1 tau s_hat_d s_d_prev =
        Except.ok (-c / b)) ∧
    (0 < a →
      computeABC pr p st n alpha a1b1 tau s_hat_d s_d_prev =
        Except.error (Err.invalidStepRegime n)) := by
  refine ⟨fun h => ?_, fun h => ?_, fun h => ?_⟩ <;>
    simp only [computeABC, ha, hb, hc, ok_bind]
  · rw [if_pos h]; rfl
  · rw [if_neg (by rw [h]; exact lt_irrefl 0), if_pos h]; rfl
  · rw [if_neg (not_lt.mpr (le_of_lt h)), if_neg (ne_of_gt h)]

/-- Witness for C1: on the two-step configuration, with the feedback pair
passed as `(-1, 0)`, the coefficients evaluate to `a = -1 < 0`, `b = -1`,
`c = 1` and the negative-`a` root is returned. -/
theorem computeABC_root_selection_witness :
    computeABC qPrims regimeParams (mkState regimeParams seedOne) 1 0
        ((-1 : ℚ), 0) 0 0 0 =
      Except.ok ((-(-1) - qPrims.sqrt ((-1) * (-1) - 4 * (-1) * 1)) /
        (2 * (-1) : ℚ)) :=
  (computeABC_root_selection qPrims regimeParams (mkState regimeParams seedOne)
    1 0 ((-1 : ℚ), 0) 0 0 0 (-1) (-1) 1 (by decide) (by decide) (by decide)).1
    (by decide)

/-- C3: the extrapolation rate used by the step that processes index
`n = s + m` after a successful run over the `m` indices starting at `s`
(begun, as in `solve`, with carried rate 0) is
`1 / dt(n-1) * log(power(n-1) / power(n-2))` when `n > 1`, and exactly `0`
when `n ≤ 1`. -/
theorem alpha_extrapolation_policy (pr : Prims α') [LinearOrderedField α']
    (p : EPKEParameters α') (st0 : SolverState α') (s m : Nat) (a : α')
    (st : SolverState α')
    (h : runSteps pr p (List.range' s m) ((0 : α'), st0) = ((a, st), none)) :
    stepUsedAlpha pr p st (s + m) a =
      (if 1 < s + m then
        computeDT p (s + m - 1) >>= fun dtp =>
          atE st.power (s + m - 1) >>= fun p1 =>
            atE st.power (s + m - 2) >>= fun p2 =>
              pure (1 / dtp * pr.log (p1 / p2))
      else Except.ok 0) := by
  by_cases hn : 1 < s + m
  · rw [stepUsedAlpha, if_pos hn, if_pos hn]
  · rw [stepUsedAlpha, if_neg hn, if_neg hn]
    have : a = 0 := by
      refine runSteps_alpha_le_one pr p (List.range' s m) 0 st0 a st ?_ h
      intro i hi
      obtain ⟨j, hj, rfl⟩ := List.mem_range'.mp hi
      omega
    rw [this]
    rfl

/-- Witness for C3: with an empty run (`m = 0`) from the seeded state at
`s = 1`, the used extrapolation rate at step 1 is 0. -/
theorem alpha_extrapolation_policy_witness :
    stepUsedAlpha qPrims calmParams (mkState calmParams seedOne) (1 + 0) 0 =
      Except.ok (0 : ℚ) :=
  alpha_extrapolation_policy qPrims calmParams (mkState calmParams seedOne)
    1 0 0 (mkState calmParams seedOne) rfl

/-- A step whose quadratic's leading coefficient is positive (all earlier
parts of the step's computation succeeding) fails with the
`invalidStepRegime` error naming that step. -/
theorem stepE_error_of_coefA_pos {α' : Type} [LinearOrderedField α']
    {pr : Prims α'} {p : EPKEParameters α'} {n : Nat} {a0 : α'}
    {st : SolverState α'} {gamma alpha : α'}
    {acc : List α' × List α' × α' × α' × α'} {ab : α' × α'} {a b c : α'}
    (hg : computeGamma p n = Except.ok gamma)
    (hal : stepUsedAlpha pr p st n a0 = Except.ok alpha)
    (hloop : powerLoop pr p st n gamma (List.range p.getNumPrecursors)
      (st.omega, st.zeta_hat, 0, 0, 0) = Except.ok acc)
    (hab : computeA1B1 pr p st n gamma = Except.ok ab)
    (ha : coefA p n ab = Except.ok a)
    (hb : coefB p n alpha ab acc.2.2.1 = Except.ok b)
    (hc : coefC pr p st n alpha acc.2.2.2.1 acc.2.2.2.2 = Except.ok c)
    (hpos : 0 < a) :
    stepE pr p n a0 st = Except.error (Err.invalidStepRegime n) := by
  have habc : computeABC pr p st n alpha ab acc.2.2.1 acc.2.2.2.1 acc.2.2.2.2 =
      Except.error (Err.invalidStepRegime n) := by
    simp only [computeABC, ha, hb, hc, ok_bind]
    rw [if_neg (not_lt.mpr (le_of_lt hpos)), if_neg (ne_of_gt hpos)]
  have hcp : computePower pr p st n alpha gamma =
      Except.error (Err.invalidStepRegime n) := by
    simp only [computePower, hloop, hab, habc, ok_bind, error_bind]
  simp only [stepE, hg, hal, hcp, ok_bind, error_bind]

/-- C2: if the quadratic's leading coefficient is positive at step `n` of
the run (the steps before `n` having succeeded and reached carried rate `aF`
and state `stF`), then the whole run fails with the error outcome
`invalidStepRegime n` identifying that exact step, the state returned is the
one reached before step `n`, and every history entry at an index greater
than `n` is unchanged from the initial state. -/
theorem invalid_regime_aborts {α' : Type} [LinearOrderedField α']
    (pr : Prims α') (p : EPKEParameters α') (pre : EPKEOutput α')
    (st0 : SolverState α') (n : Nat) (aF : α') (stF : SolverState α')
    (gamma alpha : α') (acc : List α' × List α' × α' × α' × α')
    (ab : α' × α') (a b c : α')
    (hlo : pre.getNumTimeSteps ≤ n) (hhi : n < p.getNumTimeSteps)
    (hpre : runSteps pr p
      (List.range' pre.getNumTimeSteps (n - pre.getNumTimeSteps))
      ((0 : α'), st0) = ((aF, stF), none))
    (hg : computeGamma p n = Except.ok gamma)
    (hal : stepUsedAlpha pr p stF n aF = Except.ok alpha)
    (hloop : powerLoop pr p stF n gamma (List.range p.getNumPrecursors)
      (stF.omega, stF.zeta_hat, 0, 0, 0) = Except.ok acc)
    (hab : computeA1B1 pr p stF n gamma = Except.ok ab)
    (ha : coefA p n ab = Except.ok a)
    (hb : coefB p n alpha ab acc.2.2.1 = Except.ok b)
    (hc : coefC pr p stF n alpha acc.2.2.2.1 acc.2.2.2.2 = Except.ok c)
    (hpos : 0 < a) :
    solveState pr p pre st0 = ((aF, stF), some (Err.invalidStepRegime n)) ∧
    ∀ m, n < m →
      stF.power[m]? = st0.power[m]? ∧ stF.rho[m]? = st0.rho[m]? ∧
      ∀ k, tget stF.concentrations k m = tget st0.concentrations k m := by
  have hstep : stepE pr p n aF stF = Except.error (Err.invalidStepRegime n) :=
    stepE_error_of_coefA_pos hg hal hloop hab ha hb hc hpos
  constructor
  · have hsplit : List.range' pre.getNumTimeSteps
        (p.getNumTimeSteps - pre.getNumTimeSteps) =
        List.range' pre.getNumTimeSteps (n - pre.getNumTimeSteps) ++
          List.range' n (p.getNumTimeSteps - n) := by
      have h1 : pre.getNumTimeSteps + (n - pre.getNumTimeSteps) = n := by omega
      have h2 : p.getNumTimeSteps - n + (n - pre.getNumTimeSteps) =
          p.getNumTimeSteps - pre.getNumTimeSteps := by omega
      rw [← h2, ← List.range'_append_1, h1]
    have hsucc : List.range' n (p.getNumTimeSteps - n) =
        n :: List.range' (n + 1) (p.getNumTimeSteps - n - 1) := by
      have h3 : p.getNumTimeSteps - n = (p.getNumTimeSteps - n - 1) + 1 := by
        omega
      conv_lhs => rw [h3]
      rw [List.range'_succ]
    show runSteps pr p (solveIndices p pre) ((0 : α'), st0) = _
    rw [solveIndices, hsplit, runSteps_append, hpre, hsucc]
    show runSteps pr p (n :: _) (aF, stF) = _
    unfold runSteps
    rw [hstep]
  · intro m hm
    exact runSteps_frame pr p _ 0 st0 ((aF, stF), none) hpre m
      (fun i hi => by
        obtain ⟨j, hj, rfl⟩ := List.mem_range'.mp hi
        omega)

/-- Witness for C2: on the two-step feedback configuration the single
post-seed step has `a = 1/2 > 0`, so the run aborts there with
`invalidStepRegime 1` and the seeded state is returned unchanged. -/
theorem invalid_regime_aborts_witness :
    solveState qPrims regimeParams seedOne (mkState regimeParams seedOne) =
      (((0 : ℚ), mkState regimeParams seedOne),
        some (Err.invalidStepRegime 1)) :=
  (invalid_regime_aborts qPrims regimeParams seedOne
    (mkState regimeParams seedOne) 1 0 (mkState regimeParams seedOne) 1 0
    ([0], [1], 0, 0, 0) (1/2, -1/2) (1/2) (-3/2) 1
    (by decide) (by decide) (by decide) (by decide) (by decide) (by decide)
    (by decide) (by decide) (by decide) (by decide) (by decide)).1

/-- C10: with a non-empty precomputed prefix and well-formed parameter
arrays, every checked access performed by the step loop and its helpers is in
bounds: a run can only stop at the regime error, never at `outOfRange`; and
the non-empty-prefix precondition is necessary, since with an empty prefix
the very first step reads index `n - 1` with `n = 0` (wrapped to `2^32 - 1`
by the unsigned index type) and fails out of range. -/
theorem solve_accesses_in_bounds {α' : Type} [LinearOrderedField α']
    (pr : Prims α') (p : EPKEParameters α') (pre : EPKEOutput α')
    (hWF : WFParams p) (hseed : 1 ≤ pre.getNumTimeSteps) :
    (∀ e, (solveState pr p pre (mkState p pre)).2 = some e →
      ∃ m, e = Err.invalidStepRegime m) ∧
    solveState qPrims emptySeedParams emptySeed
        (mkState emptySeedParams emptySeed) =
      (((0 : ℚ), mkState emptySeedParams emptySeed), some Err.outOfRange) := by
  constructor
  · intro e he
    rw [solveState] at he
    rcases runSteps_ok_or_regime pr (solveIndices p pre) 0 (mkState p pre) hWF
        (mkState_WFState p pre) (fun i hi => by
          obtain ⟨j, hj, rfl⟩ := List.mem_range'.mp hi
          constructor <;> omega) with hnone | ⟨m, hm⟩
    · rw [he] at hnone
      exact Option.noConfusion hnone
    · exact ⟨m, Option.some.inj (he.symm.trans hm)⟩
  · decide

/-- Witness for C10: the benign one-group configuration with a one-entry
prefix satisfies the preconditions; its run indeed stops at no out-of-range
access, and the empty-prefix configuration fails out of range at its first
step. -/
theorem solve_accesses_in_bounds_witness :
    (∀ e, (solveState qPrims calmParams seedOne
        (mkState calmParams seedOne)).2 = some e →
      ∃ m, e = Err.invalidStepRegime m) ∧
    solveState qPrims emptySeedParams emptySeed
        (mkState emptySeedParams emptySeed) =
      (((0 : ℚ), mkState emptySeedParams emptySeed), some Err.outOfRange) :=
  solve_accesses_in_bounds qPrims calmParams seedOne (by decide) (by decide)

/-- C6: `assembleGlobalOutput` is a pass-through placeholder: it returns the
solver's precomputed prefix itself, so its value is independent of the
solver's own computed histories and of any child fine solvers' results (two
solvers with the same prefix but arbitrarily different states and children
assemble the same output). -/
theorem assembleGlobalOutput_passthrough {α' : Type} [LinearOrderedField α']
    (s1 s2 : Solver α') (h : s1.precomp = s2.precomp) :
    Solver.assembleGlobalOutput s1 = s1.precomp ∧
    Solver.assembleGlobalOutput s1 = Solver.assembleGlobalOutput s2 := by
  constructor
  · rfl
  · show s1.precomp = s2.precomp
    exact h

/-- Witness for C6: two solvers sharing a prefix but with different states
and children (one has a solved child, the other none) assemble the same
output, namely the prefix. -/
theorem assembleGlobalOutput_passthrough_witness :
    Solver.assembleGlobalOutput
        (Solver.mk regimeParams seedOne (mkState calmParams seedOne)
          [Solver.make calmParams seedOne]) = seedOne ∧
    Solver.assembleGlobalOutput
        (Solver.mk regimeParams seedOne (mkState calmParams seedOne)
          [Solver.make calmParams seedOne]) =
      Solver.assembleGlobalOutput (Solver.make regimeParams seedOne) :=
  assembleGlobalOutput_passthrough
    (Solver.mk regimeParams seedOne (mkState calmParams seedOne)
      [Solver.make calmParams seedOne])
    (Solver.make regimeParams seedOne) rfl

/-- C7: `createFineSolver` constructs the child from the caller's parameter
set interpolated onto the fine grid and the caller's prefix sliced at the
coarse index, appends the child to the caller's list of owned fine solvers,
and returns it freshly constructed (its step loop has not run), leaving the
caller's parameter set, prefix and history state untouched. -/
theorem createFineSolver_spec {α' : Type} [LinearOrderedField α']
    (interp : EPKEParameters α' → List α' → EPKEParameters α')
    (s : Solver α') (fineTime : List α') (coarseIndex : Nat) :
    (Solver.createFineSolver interp s fineTime coarseIndex).2 =
      Solver.make (interp s.params fineTime)
        (s.precomp.createPrecomputed coarseIndex) ∧
    (Solver.createFineSolver interp s fineTime coarseIndex).2.state =
      mkState (interp s.params fineTime)
        (s.precomp.createPrecomputed coarseIndex) ∧
    (Solver.createFineSolver interp s fineTime coarseIndex).1.fineSolvers =
      s.fineSolvers ++ [(Solver.createFineSolver interp s fineTime coarseIndex).2] ∧
    (Solver.createFineSolver interp s fineTime coarseIndex).1.params = s.params ∧
    (Solver.createFineSolver interp s fineTime coarseIndex).1.precomp = s.precomp ∧
    (Solver.createFineSolver interp s fineTime coarseIndex).1.state = s.state :=
  ⟨rfl, rfl, rfl, rfl, rfl, rfl⟩

/-- C4: the seeded-prefix and write-once invariant of the history buffers:
(i) after construction every index below the seed length holds exactly the
history provider's values for power, reactivity and every group's
concentration; (ii) no run of the step loop (completed or aborted) ever
overwrites a prefix entry; (iii) each post-seed index `n` is written by its
own step exactly once and in increasing order — the steps before `n` leave
it untouched, and after step `n` writes it the rest of the run leaves it
unchanged, so the final history at `n` is the value step `n` wrote; and
(iv) each write depends only on entries at indices below it: on two
well-formed states agreeing below `n`, step `n` fails identically or writes
identical values. -/
theorem seed_and_write_once {α' : Type} [LinearOrderedField α']
    (pr : Prims α') (p : EPKEParameters α') (pre : EPKEOutput α')
    (hseed : 1 ≤ pre.getNumTimeSteps)
    (hlen : pre.getNumTimeSteps ≤ p.getNumTimeSteps) :
    (∀ m, m < pre.getNumTimeSteps →
      (mkState p pre).power[m]? = some (pre.getPower m) ∧
      (mkState p pre).rho[m]? = some (pre.getRho m) ∧
      ∀ k, k < p.getNumPrecursors →
        tget (mkState p pre).concentrations k m =
          some (pre.getConcentration k m)) ∧
    (∀ res, solveState pr p pre (mkState p pre) = res →
      ∀ m, m < pre.getNumTimeSteps →
        res.1.2.power[m]? = (mkState p pre).power[m]? ∧
        res.1.2.rho[m]? = (mkState p pre).rho[m]? ∧
        ∀ k, tget res.1.2.concentrations k m =
          tget (mkState p pre).concentrations k m) ∧
    (∀ n', pre.getNumTimeSteps ≤ n' → n' < p.getNumTimeSteps →
      ∀ aN stN, runSteps pr p
          (List.range' pre.getNumTimeSteps (n' - pre.getNumTimeSteps))
          ((0 : α'), mkState p pre) = ((aN, stN), none) →
        (stN.power[n']? = (mkState p pre).power[n']? ∧
         stN.rho[n']? = (mkState p pre).rho[n']? ∧
         ∀ k, tget stN.concentrations k n' =
           tget (mkState p pre).concentrations k n') ∧
        ∀ a2 st2, stepE pr p n' aN stN = Except.ok (a2, st2) →
          ∀ res, solveState pr p pre (mkState p pre) = res →
            res.1.2.power[n']? = st2.power[n']? ∧
            res.1.2.rho[n']? = st2.rho[n']? ∧
            ∀ k, tget res.1.2.concentrations k n' =
              tget st2.concentrations k n') ∧
    (∀ n' (stX stY : SolverState α') (a : α'), 1 ≤ n' →
      n' < p.getNumTimeSteps → WFState p stX → WFState p stY →
      HistAgreeLT stX stY n' →
      (∃ e, stepE pr p n' a stX = Except.error e ∧
        stepE pr p n' a stY = Except.error e) ∨
      (∃ a' stX' stY', stepE pr p n' a stX = Except.ok (a', stX') ∧
        stepE pr p n' a stY = Except.ok (a', stY') ∧
        HistAgreeLT stX' stY' (n' + 1))) := by
  refine ⟨?_, ?_, ?_, ?_⟩
  · intro m hm
    refine ⟨?_, ?_, ?_⟩
    · show (copyPrefixList _ _ (List.replicate p.getNumTimeSteps 0))[m]? = _
      rw [getElem?_copyPrefixList_lt _ _ _ m hm
        (by rw [List.length_replicate]; omega)]
    · show (copyPrefixList _ _ (List.replicate p.getNumTimeSteps 0))[m]? = _
      rw [getElem?_copyPrefixList_lt _ _ _ m hm
        (by rw [List.length_replicate]; omega)]
    · intro k hk
      show tget ((List.range p.getNumPrecursors).map _) k m = _
      unfold tget
      rw [List.getElem?_map, List.getElem?_range hk]
      show (copyPrefixList _ _ (List.replicate p.getNumTimeSteps 0))[m]? = _
      rw [getElem?_copyPrefixList_lt _ _ _ m hm
        (by rw [List.length_replicate]; omega)]
  · intro res hres m hm
    refine runSteps_frame pr p _ 0 (mkState p pre) res hres m ?_
    intro i hi
    obtain ⟨j, hj, rfl⟩ := List.mem_range'.mp hi
    omega
  · intro n' hlo hhi aN stN hpre
    constructor
    · refine runSteps_frame pr p _ 0 (mkState p pre) ((aN, stN), none) hpre n' ?_
      intro i hi
      obtain ⟨j, hj, rfl⟩ := List.mem_range'.mp hi
      omega
    · intro a2 st2 hstep res hres
      have hsplit : List.range' pre.getNumTimeSteps
          (p.getNumTimeSteps - pre.getNumTimeSteps) =
          List.range' pre.getNumTimeSteps (n' - pre.getNumTimeSteps) ++
            List.range' n' (p.getNumTimeSteps - n') := by
        have h1 : pre.getNumTimeSteps + (n' - pre.getNumTimeSteps) = n' := by
          omega
        have h2 : p.getNumTimeSteps - n' + (n' - pre.getNumTimeSteps) =
            p.getNumTimeSteps - pre.getNumTimeSteps := by omega
        rw [← h2, ← List.range'_append_1, h1]
      have hsucc : List.range' n' (p.getNumTimeSteps - n') =
          n' :: List.range' (n' + 1) (p.getNumTimeSteps - n' - 1) := by
        have h3 : p.getNumTimeSteps - n' = (p.getNumTimeSteps - n' - 1) + 1 := by
          omega
        conv_lhs => rw [h3]
        rw [List.range'_succ]
      rw [solveState, solveIndices, hsplit, runSteps_append, hpre, hsucc] at hres
      have hres1 : runSteps pr p (n' :: List.range' (n' + 1)
          (p.getNumTimeSteps - n' - 1)) (aN, stN) = res := hres
      have hres2 : runSteps pr p (List.range' (n' + 1)
          (p.getNumTimeSteps - n' - 1)) (a2, st2) = res := by
        rw [← hres1]
        simp only [runSteps, hstep]
      refine runSteps_frame pr p _ a2 st2 res hres2 n' ?_
      intro i hi
      obtain ⟨j, hj, rfl⟩ := List.mem_range'.mp hi
      omega
  · intro n' stX stY a h1 hn hWFX hWFY hAg
    exact stepE_congr pr hWFX hWFY h1 hn hAg a

/-- Witness for C4: the benign one-group configuration with its one-entry
prefix satisfies the invariant's preconditions. -/
theorem seed_and_write_once_witness :
    (∀ m, m < seedOne.getNumTimeSteps →
      (mkState calmParams seedOne).power[m]? = some (seedOne.getPower m) ∧
      (mkState calmParams seedOne).rho[m]? = some (seedOne.getRho m) ∧
      ∀ k, k < calmParams.getNumPrecursors →
        tget (mkState calmParams seedOne).concentrations k m =
          some (seedOne.getConcentration k m)) ∧
    (∀ res, solveState qPrims calmParams seedOne (mkState calmParams seedOne) =
        res →
      ∀ m, m < seedOne.getNumTimeSteps →
        res.1.2.power[m]? = (mkState calmParams seedOne).power[m]? ∧
        res.1.2.rho[m]? = (mkState calmParams seedOne).rho[m]? ∧
        ∀ k, tget res.1.2.concentrations k m =
          tget (mkState calmParams seedOne).concentrations k m) ∧
    (∀ n', seedOne.getNumTimeSteps ≤ n' → n' < calmParams.getNumTimeSteps →
      ∀ aN stN, runSteps qPrims calmParams
          (List.range' seedOne.getNumTimeSteps
            (n' - seedOne.getNumTimeSteps))
          ((0 : ℚ), mkState calmParams seedOne) = ((aN, stN), none) →
        (stN.power[n']? = (mkState calmParams seedOne).power[n']? ∧
         stN.rho[n']? = (mkState calmParams seedOne).rho[n']? ∧
         ∀ k, tget stN.concentrations k n' =
           tget (mkState calmParams seedOne).concentrations k n') ∧
        ∀ a2 st2, stepE qPrims calmParams n' aN stN = Except.ok (a2, st2) →
          ∀ res, solveState qPrims calmParams seedOne
              (mkState calmParams seedOne) = res →
            res.1.2.power[n']? = st2.power[n']? ∧
            res.1.2.rho[n']? = st2.rho[n']? ∧
            ∀ k, tget res.1.2.concentrations k n' =
              tget st2.concentrations k n') ∧
    (∀ n' (stX stY : SolverState ℚ) (a : ℚ), 1 ≤ n' →
      n' < calmParams.getNumTimeSteps → WFState calmParams stX →
      WFState calmParams stY → HistAgreeLT stX stY n' →
      (∃ e, stepE qPrims calmParams n' a stX = Except.error e ∧
        stepE qPrims calmParams n' a stY = Except.error e) ∨
      (∃ a' stX' stY', stepE qPrims calmParams n' a stX = Except.ok (a', stX') ∧
        stepE qPrims calmParams n' a stY = Except.ok (a', stY') ∧
        HistAgreeLT stX' stY' (n' + 1))) :=
  seed_and_write_once qPrims calmParams seedOne (by decide) (by decide)

/-- C5: the acceptance test is dead: a solver that computes the acceptance
criterion at every step and never applies its result (the reading of the
commented-out call site) produces history sequences identical to the
implemented solver, which contains no acceptance test at all; in particular
the `alpha = 0` fallback recomputation is never taken, the carried
extrapolation rates also agreeing step by step. -/
theorem acceptance_test_dead {α' : Type} [LinearOrderedField α']
    (pr : Prims α') (p : EPKEParameters α') (pre : EPKEOutput α')
    (hWF : WFParams p) (hseed : 1 ≤ pre.getNumTimeSteps) :
    runStepsAccept pr p (solveIndices p pre) ((0 : α'), mkState p pre) =
      solveState pr p pre (mkState p pre) := by
  rw [solveState]
  exact runStepsAccept_eq pr (solveIndices p pre) 0 (mkState p pre) hWF
    (mkState_WFState p pre) (fun i hi => by
      obtain ⟨j, hj, rfl⟩ := List.mem_range'.mp hi
      constructor <;> omega)

/-- Witness for C5: on the benign configuration the two loops produce the
same run. -/
theorem acceptance_test_dead_witness :
    runStepsAccept qPrims calmParams (solveIndices calmParams seedOne)
        ((0 : ℚ), mkState calmParams seedOne) =
      solveState qPrims calmParams seedOne (mkState calmParams seedOne) :=
  acceptance_test_dead qPrims calmParams seedOne (by decide) (by decide)

/-- C8: malformed input — a parameter array whose length does not match the
time grid, or a precomputed prefix shorter than required or longer than the
grid, or prefix sequences of inconsistent dimensions — is surfaced as the
`malformedInput` error at construction, before any stepping begins: the
checked pipeline never reaches `solve`, so no post-seed history entry is
ever written. -/
theorem malformed_input_rejected {α' : Type} [LinearOrderedField α']
    (pr : Prims α') (p : EPKEParameters α') (pre : EPKEOutput α')
    (h : ¬ wellFormedInput p pre) :
    checkedConstruct p pre = Except.error InputError.malformedInput ∧
    checkedSolve pr p pre = Except.error InputError.malformedInput := by
  have hc : checkedConstruct p pre = Except.error InputError.malformedInput := by
    rw [checkedConstruct, if_neg h]
  exact ⟨hc, by rw [checkedSolve, hc]; rfl⟩

/-- Witness for C8: the short generation-time array is rejected before any
stepping. -/
theorem malformed_input_rejected_witness :
    checkedConstruct shortParams seedOne =
      Except.error InputError.malformedInput ∧
    checkedSolve qPrims shortParams seedOne =
      Except.error InputError.malformedInput :=
  malformed_input_rejected qPrims shortParams seedOne (by decide)

/-- C9: `solve` is deterministic: two solvers constructed from identical
parameter sets and identical precomputed prefixes produce identical results,
in particular identical power, reactivity and concentration histories. -/
theorem solve_deterministic {α' : Type} [LinearOrderedField α'] (pr : Prims α')
    (p1 p2 : EPKEParameters α') (pre1 pre2 : EPKEOutput α')
    (h1 : p1 = p2) (h2 : pre1 = pre2) :
    Solver.solve pr (Solver.make p1 pre1) = Solver.solve pr (Solver.make p2 pre2) := by
  rw [h1, h2]

/-- Witness for C9: the benign configuration solved twice gives equal
results. -/
theorem solve_deterministic_witness :
    Solver.solve qPrims (Solver.make calmParams seedOne) =
      Solver.solve qPrims (Solver.make calmParams seedOne) :=
  solve_deterministic qPrims calmParams calmParams seedOne seedOne rfl rfl

end epke
